import Mathlib

/-!
# The flashcrash strategy: active-order bookkeeping and the bid ladder

A shallow embedding of `pkg/strategy/flashcrash/strategy.go`.

* `float64` values (prices, quantities, balances, the shrink factor) are
  carried as exact rationals.  Where the rounding of a `float64` product
  matters (the monotonicity of the ladder) the loop is also given with every
  product rounded, `Strategy.ladderLoopRounded`, and `roundBinary64` is the
  IEEE 754 binary64 rounding to nearest, ties to even.
* Go's `int` is a 64-bit two's-complement integer: the one subtraction the
  strategy performs on it goes through `wrapInt`.
* The collaborators (`CancelOrders`, `Balances`, `SubmitOrders`, the EWMA
  indicator) are values supplied by the caller; the calls made to them are
  recorded in a `Trace`, together with the error-level log lines.
  Info-level log lines are not recorded.
* The types of package `types` and the order book of package `bbgo` are not
  part of the translated file; they are modelled from the specification and
  marked so.
-/

namespace Flashcrash

/-! ## Data model -/

/-- Modelled from the spec: the side of an order (`types.SideType`); an order
belongs to exactly one side. -/
inductive SideType where
  | Buy
  | Sell
  deriving DecidableEq, Repr

/-- Modelled from the spec: the type of an order (`types.OrderType`); the
strategy only ever builds limit orders. -/
inductive OrderType where
  | Limit
  | Market
  deriving DecidableEq, Repr

/-- Modelled from the spec: the status of an order (`types.OrderStatus`).  The
spec lists New, PartiallyFilled, Filled, Canceled and Rejected and speaks of
"unrecognized" statuses reaching the handler; `Unrecognized` stands for every
other value of the underlying string type. -/
inductive OrderStatus where
  | New
  | PartiallyFilled
  | Filled
  | Canceled
  | Rejected
  | Unrecognized (raw : String)
  deriving DecidableEq, Repr

/-- The terminal statuses of the spec: Filled, Canceled, Rejected. -/
def OrderStatus.isTerminal : OrderStatus → Bool
  | OrderStatus.Filled => true
  | OrderStatus.Canceled => true
  | OrderStatus.Rejected => true
  | _ => false

/-- Modelled from the spec: the static description of a tradable instrument
(`types.Market`): quote currency, precision, lot-size rule.  The strategy reads
`QuoteCurrency` and copies the whole record into each request. -/
structure Market where
  QuoteCurrency : String
  PricePrecision : Int
  VolumePrecision : Int
  MinLot : ℚ
  deriving DecidableEq, Repr

/-- Modelled from the spec: an order request (`types.SubmitOrder`), with the
fields that `updateBidOrders` fills in (`Type_` is the Go field `Type`). -/
structure SubmitOrder where
  Symbol : String
  Side : SideType
  Type_ : OrderType
  Market : Market
  Quantity : ℚ
  Price : ℚ
  TimeInForce : String
  deriving DecidableEq, Repr

/-- Modelled from the spec: an order as reported by the exchange
(`types.Order`): id, symbol, side, type, price, quantity, time-in-force,
status.  Identity is the order id. -/
structure Order where
  OrderID : Nat
  Symbol : String
  Side : SideType
  Type_ : OrderType
  Price : ℚ
  Quantity : ℚ
  TimeInForce : String
  Status : OrderStatus
  deriving DecidableEq, Repr

/-- Modelled from the spec: one entry of the balance mapping,
`currency -> {Available}`. -/
structure Balance where
  Available : ℚ
  deriving DecidableEq, Repr

/-- Modelled from the spec: the price signal (`indicator.EWMA`); `Last` is the
most recent reference price, zero before the first data point. -/
structure EWMA where
  Last : ℚ
  deriving DecidableEq, Repr

/-- Modelled from the spec: the key under which the indicator set hands out an
EWMA (`types.IntervalWindow`). -/
structure IntervalWindow where
  Interval : String
  Window : Nat
  deriving DecidableEq, Repr

/-- Modelled from the spec: the host-provided indicator set
(`bbgo.StandardIndicatorSet`). -/
structure StandardIndicatorSet where
  GetEWMA : IntervalWindow → EWMA

/-! ## The active order set -/

/-- Modelled from the spec: the local active order book
(`bbgo.LocalActiveOrderBook`), a mapping from order id to order scoped to the
bid side.  The mapping is kept as a list of its values; the operations below
never leave two entries under one id. -/
structure LocalActiveOrderBook where
  Bids : List Order
  deriving DecidableEq, Repr

/-- Modelled from the spec: the empty book made by
`bbgo.NewLocalActiveOrderBook()`. -/
def NewLocalActiveOrderBook : LocalActiveOrderBook := ⟨[]⟩

namespace LocalActiveOrderBook

/-- Modelled from the spec: `Delete(order)` removes the order by id if present
and is a no-op if absent. -/
def Delete (b : LocalActiveOrderBook) (order : Order) : LocalActiveOrderBook :=
  ⟨b.Bids.filter (fun o => o.OrderID != order.OrderID)⟩

/-- Modelled from the spec: the effect of `Add` for a single order, insert or
overwrite by id. -/
def addOne (b : LocalActiveOrderBook) (order : Order) : LocalActiveOrderBook :=
  ⟨order :: b.Bids.filter (fun o => o.OrderID != order.OrderID)⟩

/-- Modelled from the spec: `Add(orders...)` inserts or overwrites each order by
id, in argument order (last write wins). -/
def Add (b : LocalActiveOrderBook) (orders : List Order) : LocalActiveOrderBook :=
  orders.foldl addOne b

/-- Modelled from the spec: `NumOfBids()`, the number of currently tracked
ids, as a Go `int`. -/
def NumOfBids (b : LocalActiveOrderBook) : Int := (b.Bids.length : Int)

/-- Modelled from the spec: `Bids.Orders()`, the tracked orders as a
sequence. -/
def Orders (b : LocalActiveOrderBook) : List Order := b.Bids

/-- The order stored under an id, if any. -/
def Get (b : LocalActiveOrderBook) (id : Nat) : Option Order :=
  b.Bids.find? (fun o => o.OrderID == id)

/-- Whether an id is tracked. -/
def Contains (b : LocalActiveOrderBook) (id : Nat) : Bool :=
  b.Bids.any (fun o => o.OrderID == id)

/-- Representation invariant: no two entries share an id. -/
def WellFormed (b : LocalActiveOrderBook) : Prop :=
  (b.Bids.map (fun o => o.OrderID)).Nodup

/-- Whether no tracked order has a terminal status. -/
def noTerminal (b : LocalActiveOrderBook) : Bool :=
  b.Bids.all (fun o => !o.Status.isTerminal)

/-- Whether every tracked order has status New or PartiallyFilled. -/
def allActive (b : LocalActiveOrderBook) : Bool :=
  b.Bids.all (fun o => o.Status == OrderStatus.New || o.Status == OrderStatus.PartiallyFilled)

end LocalActiveOrderBook

/-! ## Rounding of `float64` products -/

/-- Round a rational to the nearest integer, ties to the even one. -/
def roundHalfEven (m : ℚ) : ℤ :=
  if m - ⌊m⌋ < 1 / 2 then ⌊m⌋
  else if 1 / 2 < m - ⌊m⌋ then ⌊m⌋ + 1
  else if ⌊m⌋ % 2 = 0 then ⌊m⌋ else ⌊m⌋ + 1

/-- The binary64 exponent of a positive rational: the floor of its base-2
logarithm, but not below -1022 (the exponent shared by all subnormals). -/
def binade (q : ℚ) : ℤ := max (Int.log 2 q) (-1022)

/-- The spacing of the binary64 values around a positive rational: 53
significant bits, so `2 ^ (binade q - 52)`. -/
def quantum (q : ℚ) : ℚ := (2 : ℚ) ^ (binade q - 52)

/-- The result of a `float64` operation whose exact value is `q`: rounding to
the nearest multiple of the spacing, ties to even, symmetric in the sign.  It
is the IEEE 754 binary64 result whenever that result is finite (below
`2 ^ 1024` in magnitude); infinities and NaN are not represented. -/
def roundBinary64 (q : ℚ) : ℚ :=
  if q < 0 then -((roundHalfEven (-q / quantum (-q)) : ℚ) * quantum (-q))
  else (roundHalfEven (q / quantum q) : ℚ) * quantum q

/-- The smallest positive `float64`, `2 ^ (-1074)`, about 4.94e-324. -/
def minSubnormal : ℚ := 2 ^ (-1074 : ℤ)

/-! ## The strategy -/

/-- The `Strategy` struct: configuration, the active order book, and the
injected market and indicators. -/
structure Strategy where
  Symbol : String
  Interval : String
  GridNum : Int
  Percentage : ℚ
  BaseQuantity : ℚ
  activeOrders : LocalActiveOrderBook
  Market : Market
  StandardIndicatorSet : StandardIndicatorSet
  ewma : EWMA

/-- Modelled from the spec: `CancelOrders(ctx, orders...) -> error`, a
best-effort bulk cancel; `none` is success. -/
structure Exchange where
  CancelOrders : List Order → Option String

/-- Modelled from the spec: `Balances() -> mapping currency -> {Available}`. -/
structure Account where
  Balances : String → Option Balance

/-- Modelled from the spec: the session, giving access to the exchange and the
account (`bbgo.ExchangeSession`). -/
structure ExchangeSession where
  Exchange : Exchange
  Account : Account

/-- Modelled from the spec: `SubmitOrders(ctx, requests...) ->
(confirmedOrders, error)`, an all-or-nothing batch submission. -/
structure OrderExecutor where
  SubmitOrders : List SubmitOrder → Except String (List Order)

/-- The calls made to the collaborators, oldest first, and the error-level log
lines. -/
structure Trace where
  cancelCalls : List (List Order)
  submitCalls : List (List SubmitOrder)
  errorLogs : List String
  deriving DecidableEq, Repr

/-- The trace of a run that has not called anything yet. -/
def Trace.empty : Trace := ⟨[], [], []⟩

/-- Result of a Go `int` operation whose exact value is `x`: reduction to the
64-bit two's-complement range. -/
def wrapInt (x : Int) : Int := (x + 2 ^ 63) % 2 ^ 64 - 2 ^ 63

namespace Strategy

/-- The request appended by one iteration of the loop of `updateBidOrders`
(lines 80-88). -/
def bidRequest (s : Strategy) (startPrice : ℚ) : SubmitOrder where
  Symbol := s.Symbol
  Side := SideType.Buy
  Type_ := OrderType.Limit
  Market := s.Market
  Quantity := s.BaseQuantity
  Price := startPrice
  TimeInForce := "GTC"

/-- The loop of `updateBidOrders` (lines 79-91) with `remaining` iterations
left: append the request at `startPrice`, then multiply `startPrice` by
`Percentage`. -/
def ladderLoop (s : Strategy) : Nat → ℚ → List SubmitOrder → List SubmitOrder
  | 0, _, submitOrders => submitOrders
  | remaining + 1, startPrice, submitOrders =>
      ladderLoop s remaining (startPrice * s.Percentage)
        (submitOrders ++ [s.bidRequest startPrice])

/-- Lines 76-91 of `updateBidOrders`: the ladder of `rungs` requests built from
`ewma.Last() * Percentage`, starting from the empty slice. -/
def ladder (s : Strategy) (rungs : Nat) : List SubmitOrder :=
  s.ladderLoop rungs (s.ewma.Last * s.Percentage) []

/-- The loop of `updateBidOrders` (lines 79-91) as `ladderLoop`, with the
`float64` product of line 90 rounded by `rnd`. -/
def ladderLoopRounded (s : Strategy) (rnd : ℚ → ℚ) :
    Nat → ℚ → List SubmitOrder → List SubmitOrder
  | 0, _, submitOrders => submitOrders
  | remaining + 1, startPrice, submitOrders =>
      ladderLoopRounded s rnd remaining (rnd (startPrice * s.Percentage))
        (submitOrders ++ [s.bidRequest startPrice])

/-- Lines 76-91 of `updateBidOrders` as `ladder`, with the `float64` products
of lines 76 and 90 rounded by `rnd`; `rnd = id` is exact arithmetic and
`rnd = roundBinary64` is `float64` arithmetic. -/
def ladderRounded (s : Strategy) (rnd : ℚ → ℚ) (rungs : Nat) : List SubmitOrder :=
  s.ladderLoopRounded rnd rungs (rnd (s.ewma.Last * s.Percentage)) []

/-- Line 71 of `updateBidOrders`: `GridNum - activeOrders.NumOfBids()` in Go
`int` arithmetic. -/
def numOrders (s : Strategy) : Int :=
  wrapInt (s.GridNum - s.activeOrders.NumOfBids)

/-- The method `updateBidOrders`: balance guard, capacity guard, ladder, one
batch submission, and the bulk add of the confirmed orders. -/
def updateBidOrders (s : Strategy) (orderExecutor : OrderExecutor)
    (session : ExchangeSession) (t : Trace) : Strategy × Trace :=
  let quoteCurrency := s.Market.QuoteCurrency
  let balances := session.Account.Balances
  match balances quoteCurrency with
  | none => (s, t)
  | some balance =>
    if balance.Available ≤ 0 then (s, t)
    else
      let numOrders := s.numOrders
      if numOrders ≤ 0 then (s, t)
      else
        let submitOrders := s.ladder numOrders.toNat
        let t1 : Trace := { t with submitCalls := t.submitCalls ++ [submitOrders] }
        match orderExecutor.SubmitOrders submitOrders with
        | Except.error _ =>
            (s, { t1 with errorLogs := t1.errorLogs ++ ["submit bid order error"] })
        | Except.ok orders =>
            ({ s with activeOrders := s.activeOrders.Add orders }, t1)

/-- Lines 55-57 of `updateOrders`: the bulk cancel of the tracked bids; an
error is logged and otherwise ignored.  The book is not touched. -/
def cancelBids (s : Strategy) (session : ExchangeSession) (t : Trace) : Trace :=
  let t1 : Trace := { t with cancelCalls := t.cancelCalls ++ [s.activeOrders.Orders] }
  match session.Exchange.CancelOrders s.activeOrders.Orders with
  | some _ => { t1 with errorLogs := t1.errorLogs ++ ["cancel order error"] }
  | none => t1

/-- The method `updateOrders`, one refresh cycle: the bulk cancel, then
`updateBidOrders`. -/
def updateOrders (s : Strategy) (orderExecutor : OrderExecutor)
    (session : ExchangeSession) (t : Trace) : Strategy × Trace :=
  s.updateBidOrders orderExecutor session (s.cancelBids session t)

/-- The method `orderUpdateHandler`: events for another symbol are ignored;
Filled, Canceled and Rejected delete the order, every other status adds it. -/
def orderUpdateHandler (s : Strategy) (order : Order) : Strategy :=
  if order.Symbol ≠ s.Symbol then s
  else
    match order.Status with
    | OrderStatus.Filled =>
        { s with activeOrders := s.activeOrders.Delete order }
    | OrderStatus.Canceled | OrderStatus.Rejected =>
        { s with activeOrders := s.activeOrders.Delete order }
    | OrderStatus.PartiallyFilled =>
        { s with activeOrders := s.activeOrders.Add [order] }
    | _ =>
        { s with activeOrders := s.activeOrders.Add [order] }

/-- The method `Run`: a fresh empty book, the EWMA of window 25 on the
strategy's interval, then the initial refresh cycle.  (The registration of the
two callbacks is the host's business: it later calls `orderUpdateHandler` and
`updateOrders`.) -/
def Run (s : Strategy) (orderExecutor : OrderExecutor)
    (session : ExchangeSession) (t : Trace) : Strategy × Trace :=
  let s1 : Strategy := { s with activeOrders := NewLocalActiveOrderBook }
  let s2 : Strategy :=
    { s1 with ewma := s1.StandardIndicatorSet.GetEWMA ⟨s1.Interval, 25⟩ }
  s2.updateOrders orderExecutor session t

end Strategy

/-! ## Auxiliary notions used in the statements -/

/-- The last order of a batch that carries the given id. -/
def lastWithId (orders : List Order) (id : Nat) : Option Order :=
  orders.reverse.find? (fun o => o.OrderID == id)

/-- An executor all of whose confirmed orders have a non-terminal status. -/
def OrderExecutor.ConfirmsLive (orderExecutor : OrderExecutor) : Prop :=
  ∀ (reqs : List SubmitOrder) (orders : List Order),
    orderExecutor.SubmitOrders reqs = Except.ok orders →
    ∀ o ∈ orders, o.Status.isTerminal = false

/-- A sequence of prices in which every rung is strictly below the one before
it. -/
def StrictlyDecreasing (prices : List ℚ) : Prop :=
  ∀ (k : Nat) (p q : ℚ), prices[k]? = some p → prices[k + 1]? = some q → q < p

/-- A sequence of prices in which no rung is above the one before it. -/
def NonIncreasing (prices : List ℚ) : Prop :=
  ∀ (k : Nat) (p q : ℚ), prices[k]? = some p → prices[k + 1]? = some q → q ≤ p

/-- The total notional of a batch: the sum over its requests of price times
quantity. -/
def notional (reqs : List SubmitOrder) : ℚ :=
  (reqs.map (fun r => r.Price * r.Quantity)).sum

/-! ## Concrete inputs used by the examples -/

/-- A BTCUSDT market quoted in USDT. -/
def exMarket : Market := ⟨"USDT", 2, 6, 1 / 1000000⟩

/-- A strategy with reference price 100, shrink factor 1/2, three rungs of
quantity 1 and an empty book. -/
def exStrategy : Strategy where
  Symbol := "BTCUSDT"
  Interval := "1m"
  GridNum := 3
  Percentage := 1 / 2
  BaseQuantity := 1
  activeOrders := NewLocalActiveOrderBook
  Market := exMarket
  StandardIndicatorSet := ⟨fun _ => ⟨100⟩⟩
  ewma := ⟨100⟩

/-- A buy limit order for BTCUSDT with the given id, price and status. -/
def exOrder (id : Nat) (price : ℚ) (status : OrderStatus) : Order :=
  ⟨id, "BTCUSDT", SideType.Buy, OrderType.Limit, price, 1, "GTC", status⟩

/-- An event for BTCUSDT with the given id and status. -/
def exEvent (id : Nat) (status : OrderStatus) : Order := exOrder id 40 status

/-- The example strategy tracking the orders 7 and 8. -/
def exTracking : Strategy :=
  { exStrategy with
    activeOrders := ⟨[exOrder 7 50 OrderStatus.New, exOrder 8 25 OrderStatus.New]⟩ }

/-- The example strategy before the price signal has a data point: reference
price 0. -/
def exNoPrice : Strategy := { exStrategy with ewma := ⟨0⟩ }

/-- The example strategy with the reference price 1e-323, which as a
`float64` is twice the smallest positive value. -/
def exTinyPrice : Strategy := { exStrategy with ewma := ⟨2 * minSubnormal⟩ }

/-- The example strategy with the reference price -100. -/
def exNegativePrice : Strategy := { exStrategy with ewma := ⟨-100⟩ }

/-- A session whose account holds the given amount of USDT and whose cancel
call succeeds. -/
def exSession (available : ℚ) : ExchangeSession where
  Exchange := ⟨fun _ => none⟩
  Account := ⟨fun c => if c = "USDT" then some ⟨available⟩ else none⟩

/-- An executor that confirms every request as a New buy order, numbering the
orders from `firstId` on. -/
def exExecutor (firstId : Nat) : OrderExecutor where
  SubmitOrders := fun reqs =>
    Except.ok (reqs.enum.map (fun ir =>
      ⟨firstId + ir.1, ir.2.Symbol, ir.2.Side, ir.2.Type_, ir.2.Price, ir.2.Quantity,
        ir.2.TimeInForce, OrderStatus.New⟩))

/-- An executor whose submission always fails. -/
def exFailingExecutor : OrderExecutor where
  SubmitOrders := fun _ => Except.error "exchange unavailable"

/-- An executor that reports every request as filled on arrival. -/
def exFillingExecutor : OrderExecutor where
  SubmitOrders := fun reqs =>
    Except.ok (reqs.enum.map (fun ir =>
      ⟨1 + ir.1, ir.2.Symbol, ir.2.Side, ir.2.Type_, ir.2.Price, ir.2.Quantity,
        ir.2.TimeInForce, OrderStatus.Filled⟩))

/-- A grid of 5 with 5 tracked bids. -/
def exFull : Strategy :=
  { exStrategy with
    GridNum := 5
    activeOrders := ⟨[exOrder 1 50 OrderStatus.New, exOrder 2 25 OrderStatus.New,
      exOrder 3 12 OrderStatus.New, exOrder 4 6 OrderStatus.New,
      exOrder 5 3 OrderStatus.PartiallyFilled]⟩ }

/-- An event for another market, ETHUSDT, with the given id and status. -/
def exForeignEvent (id : Nat) (status : OrderStatus) : Order :=
  ⟨id, "ETHUSDT", SideType.Buy, OrderType.Limit, 40, 1, "GTC", status⟩

/-- A session whose account holds no USDT entry at all, only BTC. -/
def exSessionNoQuote : ExchangeSession where
  Exchange := ⟨fun _ => none⟩
  Account := ⟨fun c => if c = "BTC" then some ⟨2⟩ else none⟩

/-- A session holding the given amount of USDT whose cancel call fails. -/
def exSessionCancelFails (available : ℚ) : ExchangeSession where
  Exchange := ⟨fun _ => some "cancel rejected"⟩
  Account := ⟨fun c => if c = "USDT" then some ⟨available⟩ else none⟩

/-! ## Lemmas on the active order set -/

namespace LocalActiveOrderBook

theorem Add_singleton (b : LocalActiveOrderBook) (order : Order) :
    b.Add [order] = b.addOne order := rfl

theorem Add_cons (b : LocalActiveOrderBook) (order : Order) (orders : List Order) :
    b.Add (order :: orders) = (b.addOne order).Add orders := rfl

theorem Add_append (b : LocalActiveOrderBook) (xs ys : List Order) :
    b.Add (xs ++ ys) = (b.Add xs).Add ys := by
  simp [Add, List.foldl_append]

theorem Contains_Delete_self (b : LocalActiveOrderBook) (order : Order) :
    (b.Delete order).Contains order.OrderID = false := by
  simp [Contains, Delete]

theorem Get_Delete_self (b : LocalActiveOrderBook) (order : Order) :
    (b.Delete order).Get order.OrderID = none := by
  simp [Get, Delete]

theorem Get_Delete_other (b : LocalActiveOrderBook) (order : Order) (id : Nat)
    (h : order.OrderID ≠ id) : (b.Delete order).Get id = b.Get id := by
  have key : ∀ l : List Order,
      (l.filter (fun o => o.OrderID != order.OrderID)).find? (fun o => o.OrderID == id)
        = l.find? (fun o => o.OrderID == id) := by
    intro l
    induction l with
    | nil => rfl
    | cons o os ih =>
      by_cases ho : o.OrderID = order.OrderID
      · have hid : ¬ o.OrderID = id := fun e => h (ho ▸ e)
        simp [List.filter_cons, List.find?_cons, ho, hid, h]
        simpa using ih
      · by_cases hid : o.OrderID = id
        · have hne : ¬ id = order.OrderID := fun e => h e.symm
          simp [List.filter_cons, List.find?_cons, hid, hne]
        · simp [List.filter_cons, List.find?_cons, ho, hid]
          simpa using ih
  exact key b.Bids

theorem Get_addOne_self (b : LocalActiveOrderBook) (order : Order) :
    (b.addOne order).Get order.OrderID = some order := by
  simp [Get, addOne]

theorem Get_addOne_other (b : LocalActiveOrderBook) (order : Order) (id : Nat)
    (h : order.OrderID ≠ id) : (b.addOne order).Get id = b.Get id := by
  have hd := Get_Delete_other b order id h
  simp only [Get, Delete, addOne] at hd ⊢
  rw [List.find?_cons]
  have hb : (order.OrderID == id) = false := by simpa using h
  simp only [hb]
  exact hd

theorem Contains_addOne_self (b : LocalActiveOrderBook) (order : Order) :
    (b.addOne order).Contains order.OrderID = true := by
  simp [Contains, addOne]

theorem entries_addOne_self (b : LocalActiveOrderBook) (order : Order) :
    (b.addOne order).Bids.filter (fun o => o.OrderID == order.OrderID) = [order] := by
  simp [addOne, List.filter_cons, List.filter_filter]

end LocalActiveOrderBook

/-! ## The order update handler -/

/-- C1: for every state of the active order set and every event for the
strategy's symbol whose status is Filled, Canceled or Rejected, the set no
longer contains the event's order id after `orderUpdateHandler`, whether or
not the id was tracked before. -/
theorem orderUpdateHandler_terminal_removes (s : Strategy) (order : Order)
    (hsym : order.Symbol = s.Symbol)
    (hst : order.Status = OrderStatus.Filled ∨ order.Status = OrderStatus.Canceled ∨
      order.Status = OrderStatus.Rejected) :
    (s.orderUpdateHandler order).activeOrders.Contains order.OrderID = false ∧
      (s.orderUpdateHandler order).activeOrders.Get order.OrderID = none := by
  have h : (s.orderUpdateHandler order).activeOrders = s.activeOrders.Delete order := by
    unfold Strategy.orderUpdateHandler
    rcases hst with h | h | h <;> simp [hsym, h]
  rw [h]
  exact ⟨LocalActiveOrderBook.Contains_Delete_self _ _, LocalActiveOrderBook.Get_Delete_self _ _⟩

/-- Witness for C1: order 7 is tracked, a Canceled event for it arrives, and
it is gone; a Filled event for the untracked order 9 leaves 9 absent. -/
theorem orderUpdateHandler_terminal_removes_witness :
    exTracking.activeOrders.Contains 7 = true ∧
      (exTracking.orderUpdateHandler (exEvent 7 OrderStatus.Canceled)).activeOrders.Contains 7
        = false ∧
      (exTracking.orderUpdateHandler (exEvent 9 OrderStatus.Filled)).activeOrders.Contains 9
        = false :=
  ⟨by decide,
   (orderUpdateHandler_terminal_removes exTracking (exEvent 7 OrderStatus.Canceled) rfl
      (Or.inr (Or.inl rfl))).1,
   (orderUpdateHandler_terminal_removes exTracking (exEvent 9 OrderStatus.Filled) rfl
      (Or.inl rfl)).1⟩

/-- C2: for every state of the active order set and every event for the
strategy's symbol with status PartiallyFilled or New and id X, after
`orderUpdateHandler` the set contains X, the order stored under X is exactly
the event's order, and it is the only entry under X (an earlier order stored
under X is overwritten). -/
theorem orderUpdateHandler_active_stores (s : Strategy) (order : Order)
    (hsym : order.Symbol = s.Symbol)
    (hst : order.Status = OrderStatus.PartiallyFilled ∨ order.Status = OrderStatus.New) :
    (s.orderUpdateHandler order).activeOrders.Contains order.OrderID = true ∧
      (s.orderUpdateHandler order).activeOrders.Get order.OrderID = some order ∧
      (s.orderUpdateHandler order).activeOrders.Bids.filter
        (fun o => o.OrderID == order.OrderID) = [order] := by
  have h : (s.orderUpdateHandler order).activeOrders = s.activeOrders.addOne order := by
    unfold Strategy.orderUpdateHandler
    rcases hst with h | h <;> simp [hsym, h, LocalActiveOrderBook.Add_singleton]
  rw [h]
  exact ⟨LocalActiveOrderBook.Contains_addOne_self _ _,
    LocalActiveOrderBook.Get_addOne_self _ _, LocalActiveOrderBook.entries_addOne_self _ _⟩

/-- Witness for C2: order 7 is tracked with status New at price 50; a
PartiallyFilled event for 7 at price 40 replaces it. -/
theorem orderUpdateHandler_active_stores_witness :
    exTracking.activeOrders.Get 7 = some (exOrder 7 50 OrderStatus.New) ∧
      (exTracking.orderUpdateHandler (exEvent 7 OrderStatus.PartiallyFilled)).activeOrders.Get 7
        = some (exEvent 7 OrderStatus.PartiallyFilled) :=
  ⟨by simp [exTracking, LocalActiveOrderBook.Get, exOrder],
   (orderUpdateHandler_active_stores exTracking (exEvent 7 OrderStatus.PartiallyFilled) rfl
      (Or.inl rfl)).2.1⟩

/-! ## The bid ladder -/

theorem Strategy.ladderLoop_eq (s : Strategy) (n : Nat) (startPrice : ℚ)
    (submitOrders : List SubmitOrder) :
    s.ladderLoop n startPrice submitOrders
      = submitOrders ++
          (List.range n).map (fun k => s.bidRequest (startPrice * s.Percentage ^ k)) := by
  induction n generalizing startPrice submitOrders with
  | zero => simp [Strategy.ladderLoop]
  | succ n ih =>
    rw [Strategy.ladderLoop, ih, List.range_succ_eq_map, List.map_cons, List.map_map,
      List.append_assoc]
    congr 1
    simp only [List.singleton_append, pow_zero, mul_one]
    congr 1
    apply List.map_congr_left
    intro k _
    simp only [Function.comp, pow_succ]
    congr 1
    ring

theorem Strategy.ladder_eq (s : Strategy) (n : Nat) :
    s.ladder n
      = (List.range n).map
          (fun k => s.bidRequest (s.ewma.Last * s.Percentage ^ (k + 1))) := by
  rw [Strategy.ladder, Strategy.ladderLoop_eq, List.nil_append]
  apply List.map_congr_left
  intro k _
  congr 1
  rw [pow_succ]
  ring

theorem Strategy.ladder_length (s : Strategy) (n : Nat) : (s.ladder n).length = n := by
  simp [Strategy.ladder_eq]

theorem Strategy.ladder_prices_eq (s : Strategy) (n : Nat) :
    (s.ladder n).map (fun r => r.Price)
      = (List.range n).map (fun k => s.ewma.Last * s.Percentage ^ (k + 1)) := by
  rw [Strategy.ladder_eq, List.map_map]
  rfl

/-- C3: for every reference price `ewma.Last`, shrink factor `Percentage` and
rung count `n`, the ladder is the ordered sequence of `n` requests whose k-th
price is `ewma.Last * Percentage ^ (k + 1)`; with reference price 100, factor
1/2 and three rungs the prices are 50, 25, 25/2 in that order. -/
theorem ladder_geometric (s : Strategy) (n : Nat) :
    (s.ladder n).length = n ∧
      (s.ladder n).map (fun r => r.Price)
        = (List.range n).map (fun k => s.ewma.Last * s.Percentage ^ (k + 1)) ∧
      (({ s with ewma := ⟨100⟩, Percentage := 1 / 2 } : Strategy).ladder 3).map
        (fun r => r.Price) = [50, 25, 25 / 2] := by
  refine ⟨s.ladder_length n, s.ladder_prices_eq n, ?_⟩
  rw [Strategy.ladder_prices_eq]
  simp [List.range_succ]
  norm_num

/-! ## The refresh cycle: what is submitted -/

theorem wrapInt_of_range (x : Int) (hlo : -(2 ^ 63) ≤ x) (hhi : x < 2 ^ 63) :
    wrapInt x = x := by
  unfold wrapInt
  rw [Int.emod_eq_of_lt (by linarith) (by linarith)]
  ring

/-- Line 71 computes the exact difference whenever that difference is a Go
`int`. -/
theorem Strategy.numOrders_eq (s : Strategy)
    (hlo : -(2 ^ 63) ≤ s.GridNum - s.activeOrders.NumOfBids)
    (hhi : s.GridNum - s.activeOrders.NumOfBids < 2 ^ 63) :
    s.numOrders = s.GridNum - s.activeOrders.NumOfBids :=
  wrapInt_of_range _ hlo hhi

/-- The three ways `updateBidOrders` ends once both guards pass or one of them
stops it. -/
theorem Strategy.updateBidOrders_of_guards (s : Strategy) (orderExecutor : OrderExecutor)
    (session : ExchangeSession) (t : Trace) (balance : Balance)
    (hbal : session.Account.Balances s.Market.QuoteCurrency = some balance)
    (hpos : 0 < balance.Available) (hnum : 0 < s.numOrders) :
    s.updateBidOrders orderExecutor session t
      = match orderExecutor.SubmitOrders (s.ladder s.numOrders.toNat) with
        | Except.error _ =>
            (s, { t with
                  submitCalls := t.submitCalls ++ [s.ladder s.numOrders.toNat]
                  errorLogs := t.errorLogs ++ ["submit bid order error"] })
        | Except.ok orders =>
            ({ s with activeOrders := s.activeOrders.Add orders },
             { t with submitCalls := t.submitCalls ++ [s.ladder s.numOrders.toNat] }) := by
  unfold Strategy.updateBidOrders
  simp only [hbal, not_le.mpr hpos, not_le.mpr hnum, if_false]

/-- C4: when the quote-currency balance is present with available > 0 and
`numOrders`, the `GridNum - NumOfBids()` of line 71, is > 0, `updateBidOrders`
makes exactly one `SubmitOrders` call and its batch holds exactly `numOrders`
requests; the ladder with a rung count of 0 is the empty sequence. -/
theorem updateBidOrders_submits_one_batch (s : Strategy) (orderExecutor : OrderExecutor)
    (session : ExchangeSession) (t : Trace) (balance : Balance)
    (hbal : session.Account.Balances s.Market.QuoteCurrency = some balance)
    (hpos : 0 < balance.Available) (hnum : 0 < s.numOrders) :
    (s.updateBidOrders orderExecutor session t).2.submitCalls
        = t.submitCalls ++ [s.ladder s.numOrders.toNat] ∧
      (((s.ladder s.numOrders.toNat).length : Nat) : Int) = s.numOrders ∧
      s.ladder 0 = [] := by
  refine ⟨?_, ?_, rfl⟩
  · rw [Strategy.updateBidOrders_of_guards s orderExecutor session t balance hbal hpos hnum]
    cases orderExecutor.SubmitOrders (s.ladder s.numOrders.toNat) <;> rfl
  · rw [Strategy.ladder_length]
    exact Int.toNat_of_nonneg (le_of_lt hnum)

/-- Witness for C4: grid of 3, empty book, 1000 USDT available: one batch of
three requests, and `numOrders` is the exact difference 3 - 0. -/
theorem updateBidOrders_submits_one_batch_witness :
    exStrategy.numOrders = 3 - 0 ∧
      (exStrategy.updateBidOrders (exExecutor 1) (exSession 1000) Trace.empty).2.submitCalls
        = [exStrategy.ladder 3] ∧
      (exStrategy.ladder 3).length = 3 := by
  have hnum : exStrategy.numOrders = 3 := by decide
  have h := updateBidOrders_submits_one_batch exStrategy (exExecutor 1) (exSession 1000)
    Trace.empty ⟨1000⟩ rfl (by norm_num) (by rw [hnum]; decide)
  rw [hnum] at h
  exact ⟨by rw [hnum]; rfl, h.1, exStrategy.ladder_length 3⟩

/-- C5: every request of the ladder is a buy-side limit order for the
strategy's symbol, with quantity `BaseQuantity` and time-in-force GTC,
whatever its rung and price. -/
theorem ladder_requests_shape (s : Strategy) (n : Nat) (req : SubmitOrder)
    (hmem : req ∈ s.ladder n) :
    req.Side = SideType.Buy ∧ req.Type_ = OrderType.Limit ∧ req.Symbol = s.Symbol ∧
      req.Quantity = s.BaseQuantity ∧ req.TimeInForce = "GTC" ∧ req.Market = s.Market := by
  rw [Strategy.ladder_eq, List.mem_map] at hmem
  obtain ⟨k, _, rfl⟩ := hmem
  exact ⟨rfl, rfl, rfl, rfl, rfl, rfl⟩

/-- Witness for C5: the second rung of the example ladder, at price 25. -/
theorem ladder_requests_shape_witness :
    exStrategy.bidRequest 25 ∈ exStrategy.ladder 3 ∧
      (exStrategy.bidRequest 25).Side = SideType.Buy ∧
      (exStrategy.bidRequest 25).Type_ = OrderType.Limit ∧
      (exStrategy.bidRequest 25).Symbol = "BTCUSDT" ∧
      (exStrategy.bidRequest 25).Quantity = 1 ∧
      (exStrategy.bidRequest 25).TimeInForce = "GTC" := by
  have hmem : exStrategy.bidRequest 25 ∈ exStrategy.ladder 3 := by
    rw [Strategy.ladder_eq, List.mem_map]
    exact ⟨1, by simp, by simp [exStrategy]; norm_num⟩
  have h := ladder_requests_shape exStrategy 3 (exStrategy.bidRequest 25) hmem
  exact ⟨hmem, h.1, h.2.1, h.2.2.1, h.2.2.2.1, h.2.2.2.2.1⟩

/-! ## Monotonicity of the ladder -/

theorem Strategy.ladder_price_at (s : Strategy) (n k : Nat) (p : ℚ)
    (h : ((s.ladder n).map (fun r => r.Price))[k]? = some p) :
    k < n ∧ p = s.ewma.Last * s.Percentage ^ (k + 1) := by
  rw [Strategy.ladder_prices_eq, List.getElem?_map] at h
  by_cases hk : k < n
  · rw [List.getElem?_range hk] at h
    simp only [Option.map_some', Option.some.injEq] at h
    exact ⟨hk, h.symm⟩
  · rw [List.getElem?_eq_none (by simpa using hk)] at h
    simp at h

/-- In exact arithmetic: with shrink factor 1/2 and reference price 0 (the
price signal before its first data point) the two rungs are both priced 0, so
the second is not strictly below the first. -/
theorem ladder_not_decreasing_at_zero_price :
    0 < exNoPrice.Percentage ∧ exNoPrice.Percentage < 1 ∧
      (exNoPrice.ladder 2).map (fun r => r.Price) = [0, 0] ∧
      ¬ (∀ (k : Nat) (p q : ℚ),
          ((exNoPrice.ladder 2).map (fun r => r.Price))[k]? = some p →
          ((exNoPrice.ladder 2).map (fun r => r.Price))[k + 1]? = some q → q < p) := by
  have hp : (exNoPrice.ladder 2).map (fun r => r.Price) = [0, 0] := by
    rw [Strategy.ladder_prices_eq]
    simp [List.range_succ, exNoPrice]
  refine ⟨by norm_num [exNoPrice, exStrategy], by norm_num [exNoPrice, exStrategy], hp, ?_⟩
  intro h
  have h0 := h 0 0 0 (by rw [hp]; rfl) (by rw [hp]; rfl)
  exact lt_irrefl _ h0

/-- In exact arithmetic only: when 0 < Percentage < 1 and `ewma.Last` is > 0,
consecutive rungs of `ladder` are strictly decreasing.  The rounded `float64`
products do not keep this (`binary64_ladder_not_strict` below). -/
theorem ladder_strictly_decreasing (s : Strategy) (n : Nat)
    (hf0 : 0 < s.Percentage) (hf1 : s.Percentage < 1) (hr : 0 < s.ewma.Last)
    (k : Nat) (p q : ℚ)
    (hp : ((s.ladder n).map (fun r => r.Price))[k]? = some p)
    (hq : ((s.ladder n).map (fun r => r.Price))[k + 1]? = some q) : q < p := by
  obtain ⟨_, rfl⟩ := s.ladder_price_at n k p hp
  obtain ⟨_, rfl⟩ := s.ladder_price_at n (k + 1) q hq
  have hpos : 0 < s.ewma.Last * s.Percentage ^ (k + 1) := mul_pos hr (pow_pos hf0 _)
  calc s.ewma.Last * s.Percentage ^ (k + 1 + 1)
      = (s.ewma.Last * s.Percentage ^ (k + 1)) * s.Percentage := by rw [pow_succ]; ring
    _ < (s.ewma.Last * s.Percentage ^ (k + 1)) * 1 := mul_lt_mul_of_pos_left hf1 hpos
    _ = s.ewma.Last * s.Percentage ^ (k + 1) := mul_one _

/-- The exact ladder at reference price 100, factor 1/2: rung 1 (25) is below
rung 0 (50). -/
theorem ladder_strictly_decreasing_witness :
    ((exStrategy.ladder 3).map (fun r => r.Price))[0]? = some 50 ∧
      ((exStrategy.ladder 3).map (fun r => r.Price))[1]? = some 25 ∧ (25 : ℚ) < 50 := by
  have hl : (exStrategy.ladder 3).map (fun r => r.Price) = [50, 25, 25 / 2] := by
    rw [Strategy.ladder_prices_eq]
    simp [List.range_succ, exStrategy]
    norm_num
  have h0 : ((exStrategy.ladder 3).map (fun r => r.Price))[0]? = some 50 := by rw [hl]; rfl
  have h1 : ((exStrategy.ladder 3).map (fun r => r.Price))[0 + 1]? = some 25 := by
    rw [hl]; rfl
  exact ⟨h0, h1, ladder_strictly_decreasing exStrategy 3 (by norm_num [exStrategy])
    (by norm_num [exStrategy]) (by norm_num [exStrategy]) 0 50 25 h0 h1⟩

/-! ## Rounding to `float64`: monotone, idempotent, and the grid it fixes -/

theorem roundHalfEven_bounds (m : ℚ) : ⌊m⌋ ≤ roundHalfEven m ∧ roundHalfEven m ≤ ⌊m⌋ + 1 := by
  unfold roundHalfEven
  split_ifs <;> omega

theorem roundHalfEven_intCast (n : ℤ) : roundHalfEven (n : ℚ) = n := by
  unfold roundHalfEven
  simp

theorem roundHalfEven_mono {m m' : ℚ} (h : m ≤ m') : roundHalfEven m ≤ roundHalfEven m' := by
  have hfl : ⌊m⌋ ≤ ⌊m'⌋ := Int.floor_mono h
  rcases lt_or_eq_of_le hfl with hlt | heq
  · have h1 := (roundHalfEven_bounds m).2
    have h2 := (roundHalfEven_bounds m').1
    omega
  · have hd : m - ⌊m⌋ ≤ m' - ⌊m'⌋ := by rw [heq]; linarith
    unfold roundHalfEven
    rw [heq] at *
    split_ifs <;> first | omega | linarith

theorem roundHalfEven_le_of_le {m : ℚ} {n : ℤ} (h : m ≤ n) : roundHalfEven m ≤ n := by
  have := roundHalfEven_mono h
  rwa [roundHalfEven_intCast] at this

theorem le_roundHalfEven_of_le {m : ℚ} {n : ℤ} (h : (n : ℚ) ≤ m) : n ≤ roundHalfEven m := by
  have := roundHalfEven_mono h
  rwa [roundHalfEven_intCast] at this

theorem two_zpow_pos (z : ℤ) : (0 : ℚ) < 2 ^ z := zpow_pos (by norm_num) z

theorem two_pow_mul_zpow (k : ℕ) (e : ℤ) : (2 : ℚ) ^ k * 2 ^ (e - 52) = 2 ^ (e - 52 + k) := by
  rw [← zpow_natCast, ← zpow_add₀ (by norm_num : (2 : ℚ) ≠ 0)]
  congr 1
  ring

theorem pow53_mul (e : ℤ) : ((2 ^ 53 : ℤ) : ℚ) * 2 ^ (e - 52) = 2 ^ (e + 1) := by
  rw [Int.cast_pow, Int.cast_ofNat, two_pow_mul_zpow]
  congr 1
  push_cast
  ring

theorem pow52_mul (e : ℤ) : ((2 ^ 52 : ℤ) : ℚ) * 2 ^ (e - 52) = 2 ^ e := by
  rw [Int.cast_pow, Int.cast_ofNat, two_pow_mul_zpow]
  congr 1
  push_cast
  ring

theorem quantum_pos (q : ℚ) : 0 < quantum q := two_zpow_pos _

theorem binade_ge (q : ℚ) : -1022 ≤ binade q := le_max_right _ _

theorem log_le_binade (q : ℚ) : Int.log 2 q ≤ binade q := le_max_left _ _

theorem binade_mono {x y : ℚ} (hx : 0 < x) (h : x ≤ y) : binade x ≤ binade y :=
  max_le_max (Int.log_mono_right hx h) le_rfl

theorem lt_two_zpow_binade_succ (x : ℚ) : x < 2 ^ (binade x + 1) := by
  have h1 : x < (2 : ℚ) ^ (Int.log 2 x + 1) := by
    simpa using Int.lt_zpow_succ_log_self (b := 2) (by norm_num) x
  exact lt_of_lt_of_le h1
    (zpow_le_zpow_right₀ (by norm_num) (by linarith [log_le_binade x]))

theorem two_zpow_binade_le {x : ℚ} (hx : 0 < x) (hb : -1022 < binade x) : 2 ^ binade x ≤ x := by
  have hlog : binade x = Int.log 2 x := by
    unfold binade at hb ⊢
    rcases le_total (Int.log 2 x) (-1022) with h | h
    · rw [max_eq_right h] at hb; exact absurd hb (lt_irrefl _)
    · exact max_eq_left h
  rw [hlog]
  simpa using Int.zpow_log_le_self (b := 2) (by norm_num) hx

theorem roundBinary64_of_nonneg {q : ℚ} (h : 0 ≤ q) :
    roundBinary64 q = (roundHalfEven (q / quantum q) : ℚ) * quantum q := by
  unfold roundBinary64
  rw [if_neg (not_lt.mpr h)]

theorem roundBinary64_zero : roundBinary64 0 = 0 := by
  rw [roundBinary64_of_nonneg le_rfl, zero_div]
  have : roundHalfEven 0 = 0 := by simpa using roundHalfEven_intCast 0
  rw [this]
  simp

theorem roundBinary64_nonneg {q : ℚ} (h : 0 ≤ q) : 0 ≤ roundBinary64 q := by
  rw [roundBinary64_of_nonneg h]
  have h0 : (0 : ℤ) ≤ roundHalfEven (q / quantum q) :=
    le_roundHalfEven_of_le (by simpa using div_nonneg h (le_of_lt (quantum_pos q)))
  exact mul_nonneg (by exact_mod_cast h0) (le_of_lt (quantum_pos q))

/-- Upper bound: a value in binade `e` rounds to at most `2 ^ (e + 1)`. -/
theorem roundBinary64_le_top {x : ℚ} (hx : 0 ≤ x) : roundBinary64 x ≤ 2 ^ (binade x + 1) := by
  rw [roundBinary64_of_nonneg hx]
  have hlt : x / quantum x ≤ ((2 ^ 53 : ℤ) : ℚ) := by
    rw [div_le_iff₀ (quantum_pos x)]
    have := lt_two_zpow_binade_succ x
    have e : (((2 ^ 53 : ℤ) : ℚ)) * quantum x = 2 ^ (binade x + 1) := pow53_mul _
    rw [e]
    exact le_of_lt this
  have hn : roundHalfEven (x / quantum x) ≤ 2 ^ 53 := roundHalfEven_le_of_le hlt
  calc (roundHalfEven (x / quantum x) : ℚ) * quantum x
      ≤ ((2 ^ 53 : ℤ) : ℚ) * quantum x :=
        mul_le_mul_of_nonneg_right (by exact_mod_cast hn) (le_of_lt (quantum_pos x))
    _ = 2 ^ (binade x + 1) := pow53_mul _

/-- Lower bound: a normal value in binade `e` rounds to at least `2 ^ e`. -/
theorem bottom_le_roundBinary64 {x : ℚ} (hx : 0 < x) (hb : -1022 < binade x) :
    2 ^ binade x ≤ roundBinary64 x := by
  rw [roundBinary64_of_nonneg (le_of_lt hx)]
  have e : (((2 ^ 52 : ℤ) : ℚ)) * quantum x = 2 ^ binade x := pow52_mul _
  have hge : ((2 ^ 52 : ℤ) : ℚ) ≤ x / quantum x := by
    rw [le_div_iff₀ (quantum_pos x), e]
    exact two_zpow_binade_le hx hb
  have hn : 2 ^ 52 ≤ roundHalfEven (x / quantum x) := le_roundHalfEven_of_le hge
  calc (2 : ℚ) ^ binade x = ((2 ^ 52 : ℤ) : ℚ) * quantum x := e.symm
    _ ≤ (roundHalfEven (x / quantum x) : ℚ) * quantum x :=
        mul_le_mul_of_nonneg_right (by exact_mod_cast hn) (le_of_lt (quantum_pos x))

theorem roundBinary64_mono {x y : ℚ} (hx : 0 ≤ x) (h : x ≤ y) :
    roundBinary64 x ≤ roundBinary64 y := by
  rcases eq_or_lt_of_le hx with hx0 | hxpos
  · rw [← hx0, roundBinary64_zero]
    exact roundBinary64_nonneg (le_trans hx h)
  have hypos : 0 < y := lt_of_lt_of_le hxpos h
  rcases eq_or_lt_of_le (binade_mono hxpos h) with hb | hb
  · rw [roundBinary64_of_nonneg hx, roundBinary64_of_nonneg (le_of_lt hypos)]
    have hq : quantum x = quantum y := by unfold quantum; rw [hb]
    rw [hq]
    refine mul_le_mul_of_nonneg_right ?_ (le_of_lt (quantum_pos y))
    exact_mod_cast roundHalfEven_mono (div_le_div_of_nonneg_right h (le_of_lt (quantum_pos y)))
  · calc roundBinary64 x ≤ 2 ^ (binade x + 1) := roundBinary64_le_top hx
      _ ≤ 2 ^ binade y := zpow_le_zpow_right₀ (by norm_num) (by omega)
      _ ≤ roundBinary64 y :=
        bottom_le_roundBinary64 hypos (lt_of_le_of_lt (binade_ge x) hb)

theorem binade_of_bounds {v : ℚ} {e : ℤ} (he : -1022 ≤ e) (hv : 0 < v)
    (hlt : v < 2 ^ (e + 1)) (hge : 2 ^ e ≤ v ∨ e = -1022) : binade v = e := by
  have hlog : Int.log 2 v < e + 1 :=
    (Int.lt_zpow_iff_log_lt (b := 2) (by norm_num) hv).mp (by simpa using hlt)
  unfold binade
  apply le_antisymm
  · exact max_le (by omega) he
  · rcases hge with h | h
    · exact le_trans ((Int.zpow_le_iff_le_log (b := 2) (by norm_num) hv).mp (by simpa using h))
        (le_max_left _ _)
    · rw [h]; exact le_max_right _ _

/-- Every point of the binary64 grid is fixed by the rounding: `n * 2 ^ (e - 52)`
with `n` a 53-bit significand (normal, `2 ^ 52 ≤ n`) or a subnormal one
(`e = -1022`). -/
theorem roundBinary64_grid (n e : ℤ) (he : -1022 ≤ e) (hn0 : 0 ≤ n) (hn : n ≤ 2 ^ 53)
    (hcase : n = 0 ∨ 2 ^ 52 ≤ n ∨ e = -1022) :
    roundBinary64 ((n : ℚ) * 2 ^ (e - 52)) = (n : ℚ) * 2 ^ (e - 52) := by
  rcases eq_or_lt_of_le hn0 with h0 | hpos
  · rw [← h0]; simp [roundBinary64_zero]
  have hvpos : (0 : ℚ) < (n : ℚ) * 2 ^ (e - 52) :=
    mul_pos (by exact_mod_cast hpos) (two_zpow_pos _)
  rcases eq_or_lt_of_le hn with htop | hlt
  · -- the significand rounded up to the next binade
    have hv : (n : ℚ) * 2 ^ (e - 52) = 2 ^ (e + 1) := by rw [htop]; exact pow53_mul e
    rw [hv]
    have hb : binade ((2 : ℚ) ^ (e + 1)) = e + 1 :=
      binade_of_bounds (by omega) (two_zpow_pos _)
        (zpow_lt_zpow_right₀ (by norm_num) (by omega)) (Or.inl le_rfl)
    rw [roundBinary64_of_nonneg (le_of_lt (two_zpow_pos _))]
    have hq : quantum ((2 : ℚ) ^ (e + 1)) = 2 ^ (e + 1 - 52) := by unfold quantum; rw [hb]
    rw [hq]
    have hd : (2 : ℚ) ^ (e + 1) / 2 ^ (e + 1 - 52) = ((2 ^ 52 : ℤ) : ℚ) := by
      rw [div_eq_iff (ne_of_gt (two_zpow_pos _)), pow52_mul]
    rw [hd, roundHalfEven_intCast, pow52_mul]
  · have hvlt : (n : ℚ) * 2 ^ (e - 52) < 2 ^ (e + 1) := by
      rw [← pow53_mul e]
      exact mul_lt_mul_of_pos_right (by exact_mod_cast hlt) (two_zpow_pos _)
    have hvge : 2 ^ e ≤ (n : ℚ) * 2 ^ (e - 52) ∨ e = -1022 := by
      rcases hcase with h | h | h
      · omega
      · left
        rw [← pow52_mul e]
        exact mul_le_mul_of_nonneg_right (by exact_mod_cast h) (le_of_lt (two_zpow_pos _))
      · exact Or.inr h
    have hb : binade ((n : ℚ) * 2 ^ (e - 52)) = e := binade_of_bounds he hvpos hvlt hvge
    rw [roundBinary64_of_nonneg (le_of_lt hvpos)]
    have hq : quantum ((n : ℚ) * 2 ^ (e - 52)) = 2 ^ (e - 52) := by unfold quantum; rw [hb]
    rw [hq, mul_div_assoc, div_self (ne_of_gt (two_zpow_pos _)), mul_one, roundHalfEven_intCast]

theorem roundBinary64_idem {x : ℚ} (hx : 0 ≤ x) :
    roundBinary64 (roundBinary64 x) = roundBinary64 x := by
  rw [roundBinary64_of_nonneg hx]
  have hn0 : (0 : ℤ) ≤ roundHalfEven (x / quantum x) :=
    le_roundHalfEven_of_le (by simpa using div_nonneg hx (le_of_lt (quantum_pos x)))
  have hn : roundHalfEven (x / quantum x) ≤ 2 ^ 53 := by
    apply roundHalfEven_le_of_le
    rw [div_le_iff₀ (quantum_pos x)]
    have e : (((2 ^ 53 : ℤ) : ℚ)) * quantum x = 2 ^ (binade x + 1) := pow53_mul _
    rw [e]
    exact le_of_lt (lt_two_zpow_binade_succ x)
  have hcase : roundHalfEven (x / quantum x) = 0 ∨ 2 ^ 52 ≤ roundHalfEven (x / quantum x) ∨
      binade x = -1022 := by
    rcases eq_or_lt_of_le hx with h0 | hpos
    · left
      rw [← h0, zero_div]
      simpa using roundHalfEven_intCast 0
    · rcases eq_or_lt_of_le (binade_ge x) with hb | hb
      · exact Or.inr (Or.inr hb.symm)
      · right; left
        apply le_roundHalfEven_of_le
        rw [le_div_iff₀ (quantum_pos x)]
        have e : (((2 ^ 52 : ℤ) : ℚ)) * quantum x = 2 ^ binade x := pow52_mul _
        rw [e]
        exact two_zpow_binade_le hpos hb
  exact roundBinary64_grid _ _ (binade_ge x) hn0 hn hcase

theorem roundBinary64_minSubnormal_half :
    roundBinary64 (2 * minSubnormal * (1 / 2)) = minSubnormal := by
  have h : 2 * minSubnormal * (1 / 2) = ((1 : ℤ) : ℚ) * 2 ^ ((-1022 : ℤ) - 52) := by
    unfold minSubnormal; norm_num
  rw [h, roundBinary64_grid 1 (-1022) le_rfl (by norm_num) (by norm_num) (Or.inr (Or.inr rfl))]
  unfold minSubnormal; norm_num

theorem roundBinary64_underflow : roundBinary64 (minSubnormal * (1 / 2)) = 0 := by
  have hpos : (0 : ℚ) < minSubnormal * (1 / 2) := by unfold minSubnormal; positivity
  have hb : binade (minSubnormal * (1 / 2)) = -1022 := by
    apply binade_of_bounds le_rfl hpos _ (Or.inr rfl)
    unfold minSubnormal
    have : (2 : ℚ) ^ (-1074 : ℤ) < 2 ^ ((-1022 : ℤ) + 1) :=
      zpow_lt_zpow_right₀ (by norm_num) (by norm_num)
    linarith [two_zpow_pos (-1074)]
  rw [roundBinary64_of_nonneg (le_of_lt hpos)]
  have hq : quantum (minSubnormal * (1 / 2)) = minSubnormal := by
    unfold quantum; rw [hb]; unfold minSubnormal; norm_num
  rw [hq]
  have hd : minSubnormal * (1 / 2) / minSubnormal = 1 / 2 := by
    have : minSubnormal ≠ 0 := by unfold minSubnormal; positivity
    field_simp
    ring
  rw [hd]
  have : roundHalfEven (1 / 2) = 0 := by unfold roundHalfEven; norm_num
  rw [this]; simp

theorem roundBinary64_neg {x : ℚ} (hx : 0 < x) : roundBinary64 (-x) = -roundBinary64 x := by
  unfold roundBinary64
  rw [if_pos (by linarith : -x < 0), if_neg (by linarith : ¬ x < 0), neg_neg]

/-! ## The ladder with rounded products -/

namespace Strategy

theorem ladderLoopRounded_eq (s : Strategy) (rnd : ℚ → ℚ) (n : Nat) (startPrice : ℚ)
    (submitOrders : List SubmitOrder) :
    s.ladderLoopRounded rnd n startPrice submitOrders
      = submitOrders ++ (List.range n).map
          (fun k => s.bidRequest ((fun x => rnd (x * s.Percentage))^[k] startPrice)) := by
  induction n generalizing startPrice submitOrders with
  | zero => simp [ladderLoopRounded]
  | succ n ih =>
    rw [ladderLoopRounded, ih, List.range_succ_eq_map, List.map_cons, List.map_map,
      List.append_assoc]
    rfl

theorem ladderRounded_prices_eq (s : Strategy) (rnd : ℚ → ℚ) (n : Nat) :
    (s.ladderRounded rnd n).map (fun r => r.Price)
      = (List.range n).map
          (fun k => (fun x => rnd (x * s.Percentage))^[k] (rnd (s.ewma.Last * s.Percentage))) := by
  rw [ladderRounded, ladderLoopRounded_eq, List.nil_append, List.map_map]
  rfl

theorem ladderLoopRounded_id (s : Strategy) (n : Nat) (startPrice : ℚ)
    (submitOrders : List SubmitOrder) :
    s.ladderLoopRounded id n startPrice submitOrders = s.ladderLoop n startPrice submitOrders := by
  induction n generalizing startPrice submitOrders with
  | zero => rfl
  | succ n ih => rw [ladderLoopRounded, ladderLoop, ih]; rfl

/-- With no rounding the rounded ladder is the ladder of `updateBidOrders`. -/
theorem ladderRounded_id (s : Strategy) (n : Nat) : s.ladderRounded id n = s.ladder n :=
  s.ladderLoopRounded_id n _ _

theorem ladderRounded_price_at (s : Strategy) (rnd : ℚ → ℚ) (n k : Nat) (p : ℚ)
    (h : ((s.ladderRounded rnd n).map (fun r => r.Price))[k]? = some p) :
    k < n ∧
      p = (fun x => rnd (x * s.Percentage))^[k] (rnd (s.ewma.Last * s.Percentage)) := by
  rw [ladderRounded_prices_eq, List.getElem?_map] at h
  by_cases hk : k < n
  · rw [List.getElem?_range hk] at h
    simp only [Option.map_some', Option.some.injEq] at h
    exact ⟨hk, h.symm⟩
  · rw [List.getElem?_eq_none (by simpa using hk)] at h
    simp at h

/-- For every rounding that is monotone and idempotent on the non-negative
rationals and keeps 0, a factor in (0, 1) and a reference price >= 0 give a
ladder whose consecutive rungs never increase. -/
theorem ladderRounded_nonincreasing (s : Strategy) (rnd : ℚ → ℚ) (n : Nat)
    (hmono : ∀ x y : ℚ, 0 ≤ x → x ≤ y → rnd x ≤ rnd y)
    (hidem : ∀ x : ℚ, 0 ≤ x → rnd (rnd x) = rnd x) (hzero : rnd 0 = 0)
    (hf0 : 0 < s.Percentage) (hf1 : s.Percentage < 1) (hr : 0 ≤ s.ewma.Last)
    (k : Nat) (p q : ℚ)
    (hp : ((s.ladderRounded rnd n).map (fun r => r.Price))[k]? = some p)
    (hq : ((s.ladderRounded rnd n).map (fun r => r.Price))[k + 1]? = some q) : q ≤ p := by
  -- every rung is a non-negative value that the rounding fixes
  have hinv : ∀ j : Nat,
      0 ≤ (fun x => rnd (x * s.Percentage))^[j] (rnd (s.ewma.Last * s.Percentage)) ∧
      rnd ((fun x => rnd (x * s.Percentage))^[j] (rnd (s.ewma.Last * s.Percentage)))
        = (fun x => rnd (x * s.Percentage))^[j] (rnd (s.ewma.Last * s.Percentage)) := by
    intro j
    induction j with
    | zero =>
      have h0 : 0 ≤ s.ewma.Last * s.Percentage := mul_nonneg hr (le_of_lt hf0)
      refine ⟨?_, hidem _ h0⟩
      have := hmono 0 _ le_rfl h0
      rwa [hzero] at this
    | succ j ih =>
      rw [Function.iterate_succ_apply']
      have h0 : 0 ≤ (fun x => rnd (x * s.Percentage))^[j]
          (rnd (s.ewma.Last * s.Percentage)) * s.Percentage := mul_nonneg ih.1 (le_of_lt hf0)
      refine ⟨?_, hidem _ h0⟩
      have := hmono 0 _ le_rfl h0
      rwa [hzero] at this
  obtain ⟨_, rfl⟩ := s.ladderRounded_price_at rnd n k p hp
  obtain ⟨_, rfl⟩ := s.ladderRounded_price_at rnd n (k + 1) q hq
  rw [Function.iterate_succ_apply']
  obtain ⟨hnonneg, hfix⟩ := hinv k
  have hle : (fun x => rnd (x * s.Percentage))^[k] (rnd (s.ewma.Last * s.Percentage))
      * s.Percentage
      ≤ (fun x => rnd (x * s.Percentage))^[k] (rnd (s.ewma.Last * s.Percentage)) := by
    nlinarith
  have := hmono _ _ (mul_nonneg hnonneg (le_of_lt hf0)) hle
  rwa [hfix] at this

end Strategy

/-! ## Monotonicity of the ladder in `float64` arithmetic -/

theorem exNoPrice_binary64_prices :
    (exNoPrice.ladderRounded roundBinary64 2).map (fun r => r.Price) = [0, 0] := by
  rw [Strategy.ladderRounded_prices_eq]
  have hL : exNoPrice.ewma.Last = 0 := rfl
  simp only [List.range_succ, List.range_zero, List.nil_append, List.cons_append,
    List.map_cons, List.map_nil, Function.iterate_succ_apply', Function.iterate_zero, id,
    hL, zero_mul, roundBinary64_zero]

theorem exTinyPrice_binary64_prices :
    (exTinyPrice.ladderRounded roundBinary64 3).map (fun r => r.Price)
      = [minSubnormal, 0, 0] := by
  rw [Strategy.ladderRounded_prices_eq]
  have hL : exTinyPrice.ewma.Last = 2 * minSubnormal := rfl
  have hF : exTinyPrice.Percentage = 1 / 2 := rfl
  simp only [List.range_succ, List.range_zero, List.nil_append, List.cons_append,
    List.map_cons, List.map_nil, Function.iterate_succ_apply', Function.iterate_zero, id,
    hL, hF, roundBinary64_minSubnormal_half, roundBinary64_underflow, zero_mul,
    roundBinary64_zero]

theorem roundBinary64_neg_fifty : roundBinary64 (-100 * (1 / 2)) = -50 := by
  have h : (-100 : ℚ) * (1 / 2) = -(((7036874417766400 : ℤ) : ℚ) * 2 ^ ((5 : ℤ) - 52)) := by
    norm_num
  rw [h, roundBinary64_neg (by positivity),
    roundBinary64_grid 7036874417766400 5 (by norm_num) (by norm_num) (by norm_num)
      (Or.inr (Or.inl (by norm_num)))]
  norm_num

theorem roundBinary64_neg_twenty_five : roundBinary64 (-50 * (1 / 2)) = -25 := by
  have h : (-50 : ℚ) * (1 / 2) = -(((7036874417766400 : ℤ) : ℚ) * 2 ^ ((4 : ℤ) - 52)) := by
    norm_num
  rw [h, roundBinary64_neg (by positivity),
    roundBinary64_grid 7036874417766400 4 (by norm_num) (by norm_num) (by norm_num)
      (Or.inr (Or.inl (by norm_num)))]
  norm_num

theorem exNegativePrice_binary64_prices :
    (exNegativePrice.ladderRounded roundBinary64 2).map (fun r => r.Price) = [-50, -25] := by
  rw [Strategy.ladderRounded_prices_eq]
  have hL : exNegativePrice.ewma.Last = -100 := rfl
  have hF : exNegativePrice.Percentage = 1 / 2 := rfl
  simp only [List.range_succ, List.range_zero, List.nil_append, List.cons_append,
    List.map_cons, List.map_nil, Function.iterate_succ_apply', Function.iterate_zero, id,
    hL, hF, roundBinary64_neg_fifty, roundBinary64_neg_twenty_five]

/-- C6, the claim as stated, fails, in `float64` arithmetic as in exact
arithmetic, with shrink factor 1/2 each time.  (a) Reference price 0 (the price
signal before its first data point): the rungs are 0, 0.  (b) Reference price
1e-323, which is > 0: the rungs are 4.94e-324, 0, 0, the product having
underflowed to 0.  (c) Reference price -100: the rungs are -50, -25, which
increase.  None of the three ladders is strictly decreasing. -/
theorem binary64_ladder_not_strict :
    (0 < exStrategy.Percentage ∧ exStrategy.Percentage < 1) ∧
      ((exNoPrice.ladderRounded roundBinary64 2).map (fun r => r.Price) = [0, 0] ∧
        (exNoPrice.ladder 2).map (fun r => r.Price) = [0, 0] ∧
        ¬ StrictlyDecreasing ((exNoPrice.ladderRounded roundBinary64 2).map (fun r => r.Price))) ∧
      (0 < exTinyPrice.ewma.Last ∧
        (exTinyPrice.ladderRounded roundBinary64 3).map (fun r => r.Price)
          = [minSubnormal, 0, 0] ∧
        ¬ StrictlyDecreasing
          ((exTinyPrice.ladderRounded roundBinary64 3).map (fun r => r.Price))) ∧
      ((exNegativePrice.ladderRounded roundBinary64 2).map (fun r => r.Price) = [-50, -25] ∧
        ¬ StrictlyDecreasing
          ((exNegativePrice.ladderRounded roundBinary64 2).map (fun r => r.Price))) := by
  refine ⟨⟨by norm_num [exStrategy], by norm_num [exStrategy]⟩,
    ⟨exNoPrice_binary64_prices, ?_, ?_⟩, ⟨?_, exTinyPrice_binary64_prices, ?_⟩,
    ⟨exNegativePrice_binary64_prices, ?_⟩⟩
  · rw [Strategy.ladder_prices_eq]
    simp [List.range_succ, exNoPrice]
  · rw [exNoPrice_binary64_prices]
    intro h
    exact lt_irrefl _ (h 0 0 0 rfl rfl)
  · show (0 : ℚ) < 2 * minSubnormal
    unfold minSubnormal
    positivity
  · rw [exTinyPrice_binary64_prices]
    intro h
    exact lt_irrefl _ (h 1 0 0 rfl rfl)
  · rw [exNegativePrice_binary64_prices]
    intro h
    have := h 0 (-50) (-25) rfl rfl
    norm_num at this

/-- C6, amended: when 0 < Percentage < 1 and the reference price `ewma.Last`
is >= 0, the ladder never increases: for consecutive rungs k, k+1 the price
of rung k+1 is at most the price of rung k.  This holds with the products
rounded as `float64` does and in exact arithmetic. -/
theorem ladder_nonincreasing (s : Strategy) (n : Nat)
    (hf0 : 0 < s.Percentage) (hf1 : s.Percentage < 1) (hr : 0 ≤ s.ewma.Last) :
    NonIncreasing ((s.ladderRounded roundBinary64 n).map (fun r => r.Price)) ∧
      NonIncreasing ((s.ladder n).map (fun r => r.Price)) := by
  constructor
  · intro k p q hp hq
    exact s.ladderRounded_nonincreasing roundBinary64 n
      (fun _ _ hx hxy => roundBinary64_mono hx hxy) (fun _ hx => roundBinary64_idem hx)
      roundBinary64_zero hf0 hf1 hr k p q hp hq
  · intro k p q hp hq
    rw [← s.ladderRounded_id n] at hp hq
    exact s.ladderRounded_nonincreasing id n (fun _ _ _ hxy => hxy) (fun _ _ => rfl) rfl
      hf0 hf1 hr k p q hp hq

/-- Witness for the amended C6: reference price 1e-323, factor 1/2, three
rungs in `float64` arithmetic: 4.94e-324, 0, 0, which never increases. -/
theorem ladder_nonincreasing_witness :
    (0 : ℚ) ≤ exTinyPrice.ewma.Last ∧
      (exTinyPrice.ladderRounded roundBinary64 3).map (fun r => r.Price)
        = [minSubnormal, 0, 0] ∧
      NonIncreasing ((exTinyPrice.ladderRounded roundBinary64 3).map (fun r => r.Price)) ∧
      NonIncreasing ((exTinyPrice.ladder 3).map (fun r => r.Price)) := by
  have hr : (0 : ℚ) ≤ exTinyPrice.ewma.Last := by
    show (0 : ℚ) ≤ 2 * minSubnormal
    unfold minSubnormal
    positivity
  have h := ladder_nonincreasing exTinyPrice 3 (by norm_num [exTinyPrice, exStrategy])
    (by norm_num [exTinyPrice, exStrategy]) hr
  exact ⟨hr, exTinyPrice_binary64_prices, h.1, h.2⟩

/-! ## The refresh cycle: effect on the active order set -/

namespace LocalActiveOrderBook

theorem Get_Add (b : LocalActiveOrderBook) (orders : List Order) (id : Nat) :
    (b.Add orders).Get id = (lastWithId orders id).or (b.Get id) := by
  induction orders using List.reverseRecOn with
  | nil => simp [Add, lastWithId]
  | append_singleton xs x ih =>
    rw [Add_append, Add_singleton]
    by_cases hx : x.OrderID = id
    · subst hx
      rw [Get_addOne_self]
      simp [lastWithId]
    · rw [Get_addOne_other _ _ _ hx, ih]
      simp [lastWithId, hx]

theorem noTerminal_Delete (b : LocalActiveOrderBook) (order : Order)
    (h : b.noTerminal = true) : (b.Delete order).noTerminal = true := by
  simp only [noTerminal, Delete, List.all_eq_true, List.mem_filter] at h ⊢
  exact fun o ho => h o ho.1

theorem noTerminal_addOne (b : LocalActiveOrderBook) (order : Order)
    (h : b.noTerminal = true) (ho : order.Status.isTerminal = false) :
    (b.addOne order).noTerminal = true := by
  simp only [noTerminal, addOne, List.all_eq_true, List.mem_cons, List.mem_filter] at h ⊢
  rintro o (rfl | hmem)
  · simp [ho]
  · exact h o hmem.1

theorem noTerminal_Add (b : LocalActiveOrderBook) (orders : List Order)
    (h : b.noTerminal = true) (ho : ∀ o ∈ orders, o.Status.isTerminal = false) :
    (b.Add orders).noTerminal = true := by
  induction orders generalizing b with
  | nil => exact h
  | cons x xs ih =>
    rw [Add_cons]
    exact ih _ (noTerminal_addOne b x h (ho x (List.mem_cons_self _ _)))
      (fun o hmem => ho o (List.mem_cons_of_mem _ hmem))

theorem WellFormed_Delete (b : LocalActiveOrderBook) (order : Order)
    (h : b.WellFormed) : (b.Delete order).WellFormed :=
  List.Nodup.sublist ((List.filter_sublist b.Bids).map _) h

theorem WellFormed_addOne (b : LocalActiveOrderBook) (order : Order)
    (h : b.WellFormed) : (b.addOne order).WellFormed := by
  unfold WellFormed addOne
  rw [List.map_cons, List.nodup_cons]
  refine ⟨?_, List.Nodup.sublist ((List.filter_sublist b.Bids).map _) h⟩
  simp [List.mem_map, List.mem_filter]

theorem WellFormed_Add (b : LocalActiveOrderBook) (orders : List Order)
    (h : b.WellFormed) : (b.Add orders).WellFormed := by
  induction orders generalizing b with
  | nil => exact h
  | cons x xs ih => rw [Add_cons]; exact ih _ (WellFormed_addOne b x h)

end LocalActiveOrderBook

namespace Strategy

theorem cancelBids_submitCalls (s : Strategy) (session : ExchangeSession) (t : Trace) :
    (s.cancelBids session t).submitCalls = t.submitCalls := by
  unfold cancelBids
  cases session.Exchange.CancelOrders s.activeOrders.Orders <;> rfl

/-- The balance guard of lines 66-69, currency absent. -/
theorem updateBidOrders_of_no_balance (s : Strategy) (orderExecutor : OrderExecutor)
    (session : ExchangeSession) (t : Trace)
    (hbal : session.Account.Balances s.Market.QuoteCurrency = none) :
    s.updateBidOrders orderExecutor session t = (s, t) := by
  unfold updateBidOrders
  simp only [hbal]

/-- The balance guard of lines 66-69, nothing available. -/
theorem updateBidOrders_of_empty_balance (s : Strategy) (orderExecutor : OrderExecutor)
    (session : ExchangeSession) (t : Trace) (balance : Balance)
    (hbal : session.Account.Balances s.Market.QuoteCurrency = some balance)
    (hb : balance.Available ≤ 0) :
    s.updateBidOrders orderExecutor session t = (s, t) := by
  unfold updateBidOrders
  simp only [hbal, hb, if_true]

/-- The capacity guard of lines 71-74. -/
theorem updateBidOrders_of_full (s : Strategy) (orderExecutor : OrderExecutor)
    (session : ExchangeSession) (t : Trace) (hnum : s.numOrders ≤ 0) :
    s.updateBidOrders orderExecutor session t = (s, t) := by
  cases hbal : session.Account.Balances s.Market.QuoteCurrency with
  | none => exact updateBidOrders_of_no_balance s orderExecutor session t hbal
  | some balance =>
    by_cases hb : balance.Available ≤ 0
    · exact updateBidOrders_of_empty_balance s orderExecutor session t balance hbal hb
    · unfold updateBidOrders
      simp only [hbal, hb, hnum, if_true, if_false]

/-- The book after `updateBidOrders` is the old book or the old book with the
confirmed orders added. -/
theorem updateBidOrders_book (s : Strategy) (orderExecutor : OrderExecutor)
    (session : ExchangeSession) (t : Trace) :
    (s.updateBidOrders orderExecutor session t).1 = s ∨
      ∃ orders, orderExecutor.SubmitOrders (s.ladder s.numOrders.toNat) = Except.ok orders ∧
        (s.updateBidOrders orderExecutor session t).1
          = { s with activeOrders := s.activeOrders.Add orders } := by
  by_cases hnum : s.numOrders ≤ 0
  · exact Or.inl (by rw [updateBidOrders_of_full s orderExecutor session t hnum])
  cases hbal : session.Account.Balances s.Market.QuoteCurrency with
  | none => exact Or.inl (by rw [updateBidOrders_of_no_balance s orderExecutor session t hbal])
  | some balance =>
    by_cases hb : balance.Available ≤ 0
    · exact Or.inl
        (by rw [updateBidOrders_of_empty_balance s orderExecutor session t balance hbal hb])
    · rw [updateBidOrders_of_guards s orderExecutor session t balance hbal (not_le.mp hb)
        (not_le.mp hnum)]
      cases h : orderExecutor.SubmitOrders (s.ladder s.numOrders.toNat) with
      | error e => exact Or.inl rfl
      | ok orders => exact Or.inr ⟨orders, rfl, rfl⟩

end Strategy

theorem exStrategy_ladder :
    exStrategy.ladder 3
      = [exStrategy.bidRequest 50, exStrategy.bidRequest 25, exStrategy.bidRequest (25 / 2)] := by
  rw [Strategy.ladder_eq]
  simp [List.range_succ, exStrategy]
  norm_num

/-- The first refresh cycle of the example, made by `Run`, with the executor
that reports fills: the three confirmed orders are tracked as Filled. -/
theorem exStrategy_Run_filling :
    (exStrategy.Run exFillingExecutor (exSession 1000) Trace.empty).1.activeOrders
      = ⟨[exOrder 3 (25 / 2) OrderStatus.Filled, exOrder 2 25 OrderStatus.Filled,
          exOrder 1 50 OrderStatus.Filled]⟩ := by
  have hnum : exStrategy.numOrders = 3 := by decide
  have h := Strategy.updateBidOrders_of_guards exStrategy exFillingExecutor (exSession 1000)
    (exStrategy.cancelBids (exSession 1000) Trace.empty) ⟨1000⟩ rfl (by norm_num)
    (by rw [hnum]; decide)
  have hrun : exStrategy.Run exFillingExecutor (exSession 1000) Trace.empty
      = exStrategy.updateBidOrders exFillingExecutor (exSession 1000)
          (exStrategy.cancelBids (exSession 1000) Trace.empty) := rfl
  rw [hrun, h, hnum]
  simp only [Int.toNat_ofNat, exStrategy_ladder, exFillingExecutor]
  simp [List.enum, List.enumFrom, LocalActiveOrderBook.Add, LocalActiveOrderBook.addOne,
    exOrder, Strategy.bidRequest, exStrategy, NewLocalActiveOrderBook]
  norm_num

/-- C7, the claim as stated, fails twice.  (a) The first refresh cycle made by
`Run`, on the empty book, adds whatever `SubmitOrders` confirms: with an
executor that reports the orders as filled on arrival the book ends up holding
Filled orders.  (b) From a book whose orders are all New, an event for the
strategy's symbol with an unrecognized status is added by the default branch
of `orderUpdateHandler`, so the book holds an order that is neither New nor
PartiallyFilled. -/
theorem active_status_invariant_broken :
    ((exStrategy.Run exFillingExecutor (exSession 1000) Trace.empty).1.activeOrders.noTerminal
        = false ∧
      (exStrategy.Run exFillingExecutor (exSession 1000) Trace.empty).1.activeOrders.Get 1
        = some (exOrder 1 50 OrderStatus.Filled)) ∧
      (exTracking.activeOrders.allActive = true ∧
        (exTracking.orderUpdateHandler
          (exEvent 9 (OrderStatus.Unrecognized "EXPIRED"))).activeOrders.allActive = false) := by
  refine ⟨?_, by decide, by decide⟩
  rw [exStrategy_Run_filling]
  exact ⟨by decide, by simp [LocalActiveOrderBook.Get, exOrder]⟩

/-- C7, amended: "no tracked order has a terminal status (Filled, Canceled,
Rejected)" holds for the empty book made by `Run`, is preserved by every
`orderUpdateHandler` call (any event, any status; an unrecognized status is
kept), and is preserved by every refresh cycle, and established by `Run`,
whose executor confirms only orders with a non-terminal status. -/
theorem noTerminal_invariant :
    NewLocalActiveOrderBook.noTerminal = true ∧
      (∀ (s : Strategy) (order : Order), s.activeOrders.noTerminal = true →
        (s.orderUpdateHandler order).activeOrders.noTerminal = true) ∧
      (∀ (s : Strategy) (orderExecutor : OrderExecutor) (session : ExchangeSession)
          (t : Trace), s.activeOrders.noTerminal = true → orderExecutor.ConfirmsLive →
        (s.updateOrders orderExecutor session t).1.activeOrders.noTerminal = true) ∧
      (∀ (s : Strategy) (orderExecutor : OrderExecutor) (session : ExchangeSession)
          (t : Trace), orderExecutor.ConfirmsLive →
        (s.Run orderExecutor session t).1.activeOrders.noTerminal = true) := by
  have cycle : ∀ (s : Strategy) (orderExecutor : OrderExecutor) (session : ExchangeSession)
      (t : Trace), s.activeOrders.noTerminal = true → orderExecutor.ConfirmsLive →
      (s.updateOrders orderExecutor session t).1.activeOrders.noTerminal = true := by
    intro s orderExecutor session t hs hex
    unfold Strategy.updateOrders
    rcases Strategy.updateBidOrders_book s orderExecutor session (s.cancelBids session t)
      with h | ⟨orders, hok, h⟩
    · rw [h]; exact hs
    · rw [h]
      exact LocalActiveOrderBook.noTerminal_Add _ _ hs (hex _ _ hok)
  refine ⟨rfl, ?_, cycle, ?_⟩
  · intro s order hs
    unfold Strategy.orderUpdateHandler
    by_cases hsym : order.Symbol = s.Symbol
    · simp only [hsym, ne_eq, not_true_eq_false, if_false]
      cases hst : order.Status with
      | Filled => exact LocalActiveOrderBook.noTerminal_Delete _ _ hs
      | Canceled => exact LocalActiveOrderBook.noTerminal_Delete _ _ hs
      | Rejected => exact LocalActiveOrderBook.noTerminal_Delete _ _ hs
      | New =>
        exact LocalActiveOrderBook.noTerminal_addOne _ _ hs (by rw [hst]; rfl)
      | PartiallyFilled =>
        exact LocalActiveOrderBook.noTerminal_addOne _ _ hs (by rw [hst]; rfl)
      | Unrecognized raw =>
        exact LocalActiveOrderBook.noTerminal_addOne _ _ hs (by rw [hst]; rfl)
    · simp only [ne_eq, hsym, not_false_eq_true, if_true]
      exact hs
  · intro s orderExecutor session t hex
    exact cycle _ orderExecutor session t rfl hex

theorem exExecutor_ConfirmsLive (firstId : Nat) : (exExecutor firstId).ConfirmsLive := by
  intro reqs orders hok o ho
  simp only [exExecutor, Except.ok.injEq] at hok
  subst hok
  simp only [List.mem_map] at ho
  obtain ⟨ir, _, rfl⟩ := ho
  rfl

/-- Witness for the amended C7: the tracked orders 7 and 8 are New; after a
Canceled event for 7, and after a refresh cycle with an executor that confirms
New orders, no tracked order is terminal. -/
theorem noTerminal_invariant_witness :
    exTracking.activeOrders.noTerminal = true ∧
      (exTracking.orderUpdateHandler (exEvent 7 OrderStatus.Canceled)).activeOrders.noTerminal
        = true ∧
      (exTracking.updateOrders (exExecutor 10) (exSession 1000)
        Trace.empty).1.activeOrders.noTerminal = true :=
  ⟨by decide,
   noTerminal_invariant.2.1 exTracking (exEvent 7 OrderStatus.Canceled) (by decide),
   noTerminal_invariant.2.2.1 exTracking (exExecutor 10) (exSession 1000) Trace.empty
     (by decide) (exExecutor_ConfirmsLive 10)⟩

theorem exTracking_ladder : exTracking.ladder 1 = [exTracking.bidRequest 50] := by
  rw [Strategy.ladder_eq]
  simp [List.range_succ, exTracking, exStrategy]
  norm_num

/-- C8: if the `SubmitOrders` call of a refresh cycle returns an error, the
cycle ends with the strategy, and so its active order set, exactly as it was
before the cycle: no order was added or removed. -/
theorem updateOrders_submit_error_keeps_set (s : Strategy) (orderExecutor : OrderExecutor)
    (session : ExchangeSession) (t : Trace) (err : String)
    (herr : orderExecutor.SubmitOrders (s.ladder s.numOrders.toNat) = Except.error err) :
    (s.updateOrders orderExecutor session t).1 = s ∧
      (s.updateOrders orderExecutor session t).1.activeOrders = s.activeOrders := by
  have h : (s.updateOrders orderExecutor session t).1 = s := by
    unfold Strategy.updateOrders
    rcases Strategy.updateBidOrders_book s orderExecutor session (s.cancelBids session t)
      with h | ⟨orders, hok, _⟩
    · exact h
    · rw [herr] at hok
      cases hok
  exact ⟨h, by rw [h]⟩

/-- Witness for C8: orders 7 and 8 tracked, grid of 3, 1000 USDT: the cycle
submits the one-rung batch, the submission fails, and the book still holds
exactly 7 and 8. -/
theorem updateOrders_submit_error_keeps_set_witness :
    (exTracking.updateOrders exFailingExecutor (exSession 1000) Trace.empty).2.submitCalls
        = [exTracking.ladder 1] ∧
      (exTracking.updateOrders exFailingExecutor (exSession 1000) Trace.empty).1.activeOrders
        = ⟨[exOrder 7 50 OrderStatus.New, exOrder 8 25 OrderStatus.New]⟩ := by
  have hnum : exTracking.numOrders = 1 := by decide
  refine ⟨?_, (updateOrders_submit_error_keeps_set exTracking exFailingExecutor
    (exSession 1000) Trace.empty "exchange unavailable" rfl).2⟩
  unfold Strategy.updateOrders
  rw [Strategy.updateBidOrders_of_guards exTracking exFailingExecutor (exSession 1000) _
    ⟨1000⟩ rfl (by norm_num) (by rw [hnum]; decide), hnum]
  rfl

/-- C9: if both guards pass and `SubmitOrders` succeeds, the strategy after the
refresh cycle is the strategy before it with the confirmed orders added to the
book: under every id the book holds the last confirmed order with that id if
there is one (overwriting an earlier entry) and what it held before
otherwise; no two entries share an id if none did before. -/
theorem updateOrders_success_adds_confirmed (s : Strategy) (orderExecutor : OrderExecutor)
    (session : ExchangeSession) (t : Trace) (balance : Balance) (orders : List Order)
    (hbal : session.Account.Balances s.Market.QuoteCurrency = some balance)
    (hpos : 0 < balance.Available) (hnum : 0 < s.numOrders)
    (hok : orderExecutor.SubmitOrders (s.ladder s.numOrders.toNat) = Except.ok orders) :
    (s.updateOrders orderExecutor session t).1
        = { s with activeOrders := s.activeOrders.Add orders } ∧
      (∀ id : Nat, (s.updateOrders orderExecutor session t).1.activeOrders.Get id
        = (lastWithId orders id).or (s.activeOrders.Get id)) ∧
      (s.activeOrders.WellFormed →
        (s.updateOrders orderExecutor session t).1.activeOrders.WellFormed) := by
  have h : (s.updateOrders orderExecutor session t).1
      = { s with activeOrders := s.activeOrders.Add orders } := by
    unfold Strategy.updateOrders
    rw [Strategy.updateBidOrders_of_guards s orderExecutor session _ balance hbal hpos hnum, hok]
  refine ⟨h, ?_, ?_⟩
  · intro id
    rw [h]
    exact LocalActiveOrderBook.Get_Add _ _ _
  · intro hwf
    rw [h]
    exact LocalActiveOrderBook.WellFormed_Add _ _ hwf

/-- Witness for C9: orders 7 (at 50) and 8 tracked, grid of 3; the executor
confirms the one request as order 7 again: the new order 7 replaces the old
one and 8 is untouched. -/
theorem updateOrders_success_adds_confirmed_witness :
    (exTracking.updateOrders (exExecutor 7) (exSession 1000) Trace.empty).1.activeOrders.Get 7
        = (lastWithId [exOrder 7 50 OrderStatus.New] 7).or (exTracking.activeOrders.Get 7) ∧
      (exTracking.updateOrders (exExecutor 7) (exSession 1000) Trace.empty).1.activeOrders.Get 8
        = (lastWithId [exOrder 7 50 OrderStatus.New] 8).or (exTracking.activeOrders.Get 8) := by
  have hnum : exTracking.numOrders = 1 := by decide
  have hok : (exExecutor 7).SubmitOrders (exTracking.ladder exTracking.numOrders.toNat)
      = Except.ok [exOrder 7 50 OrderStatus.New] := by
    rw [hnum]
    simp only [Int.toNat_ofNat, exTracking_ladder, exExecutor]
    simp [List.enum, List.enumFrom, exOrder, Strategy.bidRequest, exTracking, exStrategy]
    norm_num
  have h := updateOrders_success_adds_confirmed exTracking (exExecutor 7) (exSession 1000)
    Trace.empty ⟨1000⟩ [exOrder 7 50 OrderStatus.New] rfl (by norm_num)
    (by rw [hnum]; decide) hok
  exact ⟨h.2.1 7, h.2.1 8⟩

/-- C10: in a refresh cycle where `numOrders`, the `GridNum - NumOfBids()` of
line 71, is <= 0, `SubmitOrders` is not called and the strategy, and so its
active order set, is after the cycle what it was before. -/
theorem updateOrders_full_grid_noop (s : Strategy) (orderExecutor : OrderExecutor)
    (session : ExchangeSession) (t : Trace) (hnum : s.numOrders ≤ 0) :
    (s.updateOrders orderExecutor session t).2.submitCalls = t.submitCalls ∧
      (s.updateOrders orderExecutor session t).1 = s ∧
      (s.updateOrders orderExecutor session t).1.activeOrders = s.activeOrders := by
  unfold Strategy.updateOrders
  rw [Strategy.updateBidOrders_of_full s orderExecutor session _ hnum]
  exact ⟨Strategy.cancelBids_submitCalls s session t, rfl, rfl⟩

/-- Witness for C10: GridNum = 5 and 5 tracked bids, so the difference is 0:
nothing is submitted and the five orders stay. -/
theorem updateOrders_full_grid_noop_witness :
    exFull.GridNum - exFull.activeOrders.NumOfBids = 0 ∧ exFull.numOrders = 0 ∧
      (exFull.updateOrders (exExecutor 10) (exSession 1000) Trace.empty).2.submitCalls = [] ∧
      (exFull.updateOrders (exExecutor 10) (exSession 1000) Trace.empty).1.activeOrders
        = exFull.activeOrders := by
  have h := updateOrders_full_grid_noop exFull (exExecutor 10) (exSession 1000) Trace.empty
    (by decide)
  exact ⟨by decide, by decide, h.1, h.2.2⟩

/-! ## The guards and the symbol filter -/

/-- C11: in a refresh cycle where the market's quote currency is absent from
the balance mapping, or its available balance is <= 0, `SubmitOrders` is not
called and the strategy, and so its active order set, is left unchanged,
whatever `GridNum` and the number of tracked bids are. -/
theorem updateOrders_balance_guard_noop (s : Strategy) (orderExecutor : OrderExecutor)
    (session : ExchangeSession) (t : Trace)
    (hguard : session.Account.Balances s.Market.QuoteCurrency = none ∨
      ∃ balance, session.Account.Balances s.Market.QuoteCurrency = some balance ∧
        balance.Available ≤ 0) :
    (s.updateOrders orderExecutor session t).2.submitCalls = t.submitCalls ∧
      (s.updateOrders orderExecutor session t).1 = s ∧
      (s.updateOrders orderExecutor session t).1.activeOrders = s.activeOrders := by
  have h : s.updateOrders orderExecutor session t = (s, s.cancelBids session t) := by
    unfold Strategy.updateOrders
    rcases hguard with hnone | ⟨balance, hbal, hb⟩
    · exact Strategy.updateBidOrders_of_no_balance s orderExecutor session _ hnone
    · exact Strategy.updateBidOrders_of_empty_balance s orderExecutor session _ balance hbal hb
  rw [h]
  exact ⟨Strategy.cancelBids_submitCalls s session t, rfl, rfl⟩

/-- Witness for C11: the grid of 3 with an empty book, once with exactly 0 USDT
available and once with no USDT entry: nothing is submitted. -/
theorem updateOrders_balance_guard_noop_witness :
    (exStrategy.updateOrders (exExecutor 1) (exSession 0) Trace.empty).2.submitCalls = [] ∧
      (exStrategy.updateOrders (exExecutor 1) (exSession 0) Trace.empty).1.activeOrders
        = exStrategy.activeOrders ∧
      (exStrategy.updateOrders (exExecutor 1) exSessionNoQuote Trace.empty).2.submitCalls
        = [] :=
  ⟨(updateOrders_balance_guard_noop exStrategy (exExecutor 1) (exSession 0) Trace.empty
      (Or.inr ⟨⟨0⟩, rfl, le_refl _⟩)).1,
   (updateOrders_balance_guard_noop exStrategy (exExecutor 1) (exSession 0) Trace.empty
      (Or.inr ⟨⟨0⟩, rfl, le_refl _⟩)).2.2,
   (updateOrders_balance_guard_noop exStrategy (exExecutor 1) exSessionNoQuote Trace.empty
      (Or.inl rfl)).1⟩

/-- C12: for every order event whose symbol differs from the strategy's
symbol, `orderUpdateHandler` leaves the strategy, and so its active order set,
unchanged, whatever the event's status and id. -/
theorem orderUpdateHandler_other_symbol_ignored (s : Strategy) (order : Order)
    (hsym : order.Symbol ≠ s.Symbol) :
    s.orderUpdateHandler order = s ∧
      (s.orderUpdateHandler order).activeOrders = s.activeOrders := by
  have h : s.orderUpdateHandler order = s := by
    unfold Strategy.orderUpdateHandler
    simp only [hsym, ne_eq, not_false_eq_true, if_true]
  exact ⟨h, by rw [h]⟩

/-- Witness for C12: order 7 is tracked; a Filled event for id 7 on ETHUSDT
leaves the book holding 7 and 8. -/
theorem orderUpdateHandler_other_symbol_ignored_witness :
    exTracking.activeOrders.Contains 7 = true ∧
      (exTracking.orderUpdateHandler (exForeignEvent 7 OrderStatus.Filled)).activeOrders
        = ⟨[exOrder 7 50 OrderStatus.New, exOrder 8 25 OrderStatus.New]⟩ :=
  ⟨by decide,
   (orderUpdateHandler_other_symbol_ignored exTracking (exForeignEvent 7 OrderStatus.Filled)
      (by decide)).2⟩

/-- C13: for every order event for the strategy's symbol whose status is none
of Filled, Canceled, Rejected, PartiallyFilled (New, or an unrecognized
value), `orderUpdateHandler`, a total function with no error result, adds the
order to the active order set: afterwards the set contains the event's id and
stores the event's order under it. -/
theorem orderUpdateHandler_default_adds (s : Strategy) (order : Order)
    (hsym : order.Symbol = s.Symbol)
    (hF : order.Status ≠ OrderStatus.Filled) (hC : order.Status ≠ OrderStatus.Canceled)
    (hR : order.Status ≠ OrderStatus.Rejected)
    (hP : order.Status ≠ OrderStatus.PartiallyFilled) :
    s.orderUpdateHandler order = { s with activeOrders := s.activeOrders.Add [order] } ∧
      (s.orderUpdateHandler order).activeOrders.Contains order.OrderID = true ∧
      (s.orderUpdateHandler order).activeOrders.Get order.OrderID = some order := by
  have h : s.orderUpdateHandler order
      = { s with activeOrders := s.activeOrders.Add [order] } := by
    unfold Strategy.orderUpdateHandler
    cases hst : order.Status with
    | Filled => exact absurd hst hF
    | Canceled => exact absurd hst hC
    | Rejected => exact absurd hst hR
    | PartiallyFilled => exact absurd hst hP
    | New => simp only [hsym, hst, ne_eq, not_true_eq_false, if_false]
    | Unrecognized raw => simp only [hsym, hst, ne_eq, not_true_eq_false, if_false]
  rw [h]
  exact ⟨rfl, LocalActiveOrderBook.Contains_addOne_self _ _,
    LocalActiveOrderBook.Get_addOne_self _ _⟩

/-- Witness for C13: an event for the untracked order 9 with the unrecognized
status EXPIRED is added and is found under id 9. -/
theorem orderUpdateHandler_default_adds_witness :
    exTracking.activeOrders.Contains 9 = false ∧
      (exTracking.orderUpdateHandler
        (exEvent 9 (OrderStatus.Unrecognized "EXPIRED"))).activeOrders.Get 9
        = some (exEvent 9 (OrderStatus.Unrecognized "EXPIRED")) :=
  ⟨by decide,
   (orderUpdateHandler_default_adds exTracking (exEvent 9 (OrderStatus.Unrecognized "EXPIRED"))
      rfl (by decide) (by decide) (by decide) (by decide)).2.2⟩

/-! ## Cancellation failures, idempotence, notional -/

/-- What `updateBidOrders` does to the strategy and to the list of submitted
batches does not depend on the rest of the trace it is handed, and it keeps
every error line already logged. -/
theorem Strategy.updateBidOrders_trace (s : Strategy) (orderExecutor : OrderExecutor)
    (session : ExchangeSession) (t u : Trace) (hsub : t.submitCalls = u.submitCalls) :
    (s.updateBidOrders orderExecutor session t).1
        = (s.updateBidOrders orderExecutor session u).1 ∧
      (s.updateBidOrders orderExecutor session t).2.submitCalls
        = (s.updateBidOrders orderExecutor session u).2.submitCalls ∧
      ∀ line ∈ t.errorLogs, line ∈ (s.updateBidOrders orderExecutor session t).2.errorLogs := by
  by_cases hnum : s.numOrders ≤ 0
  · rw [Strategy.updateBidOrders_of_full s orderExecutor session t hnum,
      Strategy.updateBidOrders_of_full s orderExecutor session u hnum]
    exact ⟨rfl, hsub, fun _ h => h⟩
  cases hbal : session.Account.Balances s.Market.QuoteCurrency with
  | none =>
    rw [Strategy.updateBidOrders_of_no_balance s orderExecutor session t hbal,
      Strategy.updateBidOrders_of_no_balance s orderExecutor session u hbal]
    exact ⟨rfl, hsub, fun _ h => h⟩
  | some balance =>
    by_cases hb : balance.Available ≤ 0
    · rw [Strategy.updateBidOrders_of_empty_balance s orderExecutor session t balance hbal hb,
        Strategy.updateBidOrders_of_empty_balance s orderExecutor session u balance hbal hb]
      exact ⟨rfl, hsub, fun _ h => h⟩
    · rw [Strategy.updateBidOrders_of_guards s orderExecutor session t balance hbal
          (not_le.mp hb) (not_le.mp hnum),
        Strategy.updateBidOrders_of_guards s orderExecutor session u balance hbal
          (not_le.mp hb) (not_le.mp hnum)]
      cases orderExecutor.SubmitOrders (s.ladder s.numOrders.toNat) with
      | error e =>
        refine ⟨rfl, ?_, ?_⟩
        · show t.submitCalls ++ _ = u.submitCalls ++ _
          rw [hsub]
        · intro line h
          exact List.mem_append_left _ h
      | ok orders =>
        refine ⟨rfl, ?_, fun _ h => h⟩
        show t.submitCalls ++ _ = u.submitCalls ++ _
        rw [hsub]

/-- C14: the outcome of a refresh cycle does not depend on whether
`CancelOrders` fails: for the same strategy, balances, executor and trace, the
cycle whose cancel call returns an error ends with the same strategy (same
active order set) and the same submitted batches as the cycle whose cancel call
succeeds; the failure is only logged (and a successful cancel logs
nothing). -/
theorem updateOrders_cancel_error_irrelevant (s : Strategy) (orderExecutor : OrderExecutor)
    (account : Account) (failing succeeding : Exchange) (t : Trace) (err : String)
    (hfail : failing.CancelOrders s.activeOrders.Orders = some err)
    (hsucc : succeeding.CancelOrders s.activeOrders.Orders = none) :
    (s.updateOrders orderExecutor ⟨failing, account⟩ t).1
        = (s.updateOrders orderExecutor ⟨succeeding, account⟩ t).1 ∧
      (s.updateOrders orderExecutor ⟨failing, account⟩ t).1.activeOrders
        = (s.updateOrders orderExecutor ⟨succeeding, account⟩ t).1.activeOrders ∧
      (s.updateOrders orderExecutor ⟨failing, account⟩ t).2.submitCalls
        = (s.updateOrders orderExecutor ⟨succeeding, account⟩ t).2.submitCalls ∧
      "cancel order error" ∈ (s.updateOrders orderExecutor ⟨failing, account⟩ t).2.errorLogs ∧
      (s.cancelBids ⟨succeeding, account⟩ t).errorLogs = t.errorLogs := by
  have hsub : (s.cancelBids ⟨failing, account⟩ t).submitCalls
      = (s.cancelBids ⟨succeeding, account⟩ t).submitCalls := by
    rw [Strategy.cancelBids_submitCalls, Strategy.cancelBids_submitCalls]
  have hlog : "cancel order error" ∈ (s.cancelBids ⟨failing, account⟩ t).errorLogs := by
    unfold Strategy.cancelBids
    simp only [hfail]
    exact List.mem_append_right _ (List.mem_singleton_self _)
  -- the two cycles differ only in the session's exchange, which `updateBidOrders` never reads
  have hsame : ∀ u : Trace, s.updateBidOrders orderExecutor ⟨failing, account⟩ u
      = s.updateBidOrders orderExecutor ⟨succeeding, account⟩ u := fun _ => rfl
  have hquiet : (s.cancelBids ⟨succeeding, account⟩ t).errorLogs = t.errorLogs := by
    unfold Strategy.cancelBids
    simp only [hsucc]
  unfold Strategy.updateOrders
  have key := Strategy.updateBidOrders_trace s orderExecutor ⟨failing, account⟩
    (s.cancelBids ⟨failing, account⟩ t) (s.cancelBids ⟨succeeding, account⟩ t) hsub
  rw [hsame (s.cancelBids ⟨succeeding, account⟩ t)] at key
  exact ⟨key.1, by rw [key.1], key.2.1, key.2.2 _ hlog, hquiet⟩

/-- Witness for C14: orders 7 and 8 tracked, 1000 USDT; the cycle with a
failing cancel and the cycle with a succeeding cancel end with the same book
and the same submitted batch. -/
theorem updateOrders_cancel_error_irrelevant_witness :
    (exTracking.updateOrders (exExecutor 10) (exSessionCancelFails 1000)
        Trace.empty).1.activeOrders
        = (exTracking.updateOrders (exExecutor 10) (exSession 1000)
            Trace.empty).1.activeOrders ∧
      (exTracking.updateOrders (exExecutor 10) (exSessionCancelFails 1000)
        Trace.empty).2.submitCalls
        = (exTracking.updateOrders (exExecutor 10) (exSession 1000)
            Trace.empty).2.submitCalls :=
  ⟨(updateOrders_cancel_error_irrelevant exTracking (exExecutor 10)
      (exSession 1000).Account (exSessionCancelFails 1000).Exchange (exSession 1000).Exchange
      Trace.empty "cancel rejected" rfl rfl).2.1,
   (updateOrders_cancel_error_irrelevant exTracking (exExecutor 10)
      (exSession 1000).Account (exSessionCancelFails 1000).Exchange (exSession 1000).Exchange
      Trace.empty "cancel rejected" rfl rfl).2.2.1⟩

theorem LocalActiveOrderBook.addOne_addOne_self (b : LocalActiveOrderBook) (order : Order) :
    (b.addOne order).addOne order = b.addOne order := by
  simp [LocalActiveOrderBook.addOne, List.filter_cons, List.filter_filter]

/-- C15: adding is idempotent: for every book and every order, adding the same
order twice (in two calls or in one) leaves the book as adding it once; so
processing the same New or PartiallyFilled event for the strategy's symbol
twice in a row through `orderUpdateHandler` yields the same strategy, hence
the same ids, stored orders and count, as processing it once. -/
theorem orderUpdateHandler_add_idempotent (s : Strategy) (order : Order)
    (hsym : order.Symbol = s.Symbol)
    (hst : order.Status = OrderStatus.New ∨ order.Status = OrderStatus.PartiallyFilled) :
    (∀ (b : LocalActiveOrderBook) (o : Order),
        (b.Add [o]).Add [o] = b.Add [o] ∧ b.Add [o, o] = b.Add [o]) ∧
      (s.orderUpdateHandler order).orderUpdateHandler order = s.orderUpdateHandler order ∧
      ((s.orderUpdateHandler order).orderUpdateHandler order).activeOrders.NumOfBids
        = (s.orderUpdateHandler order).activeOrders.NumOfBids := by
  have hadd : ∀ (b : LocalActiveOrderBook) (o : Order),
      (b.Add [o]).Add [o] = b.Add [o] ∧ b.Add [o, o] = b.Add [o] := fun b o =>
    ⟨LocalActiveOrderBook.addOne_addOne_self b o, LocalActiveOrderBook.addOne_addOne_self b o⟩
  have h1 : ∀ s1 : Strategy, order.Symbol = s1.Symbol →
      s1.orderUpdateHandler order
        = { s1 with activeOrders := s1.activeOrders.addOne order } := by
    intro s1 hs1
    unfold Strategy.orderUpdateHandler
    rcases hst with h | h <;>
      simp only [hs1, h, ne_eq, not_true_eq_false, if_false,
        LocalActiveOrderBook.Add_singleton]
  have h2 : (s.orderUpdateHandler order).orderUpdateHandler order
      = s.orderUpdateHandler order := by
    rw [h1 s hsym, h1 { s with activeOrders := s.activeOrders.addOne order } hsym]
    simp only [LocalActiveOrderBook.addOne_addOne_self]
  exact ⟨hadd, h2, by rw [h2]⟩

/-- Witness for C15: the PartiallyFilled event for the tracked order 7,
processed twice, leaves the book as after the first time. -/
theorem orderUpdateHandler_add_idempotent_witness :
    ((exTracking.orderUpdateHandler (exEvent 7 OrderStatus.PartiallyFilled)).orderUpdateHandler
        (exEvent 7 OrderStatus.PartiallyFilled)).activeOrders
      = (exTracking.orderUpdateHandler (exEvent 7 OrderStatus.PartiallyFilled)).activeOrders :=
  congrArg Strategy.activeOrders
    (orderUpdateHandler_add_idempotent exTracking (exEvent 7 OrderStatus.PartiallyFilled) rfl
      (Or.inr rfl)).2.1

/-- C16: the guards of `updateBidOrders` do not bound the submitted notional by
the balance: with a grid of 3, factor 1/2, quantity 1, reference price 100
and 1 USDT available, both guards pass, the batch of three requests is
submitted, and its notional 50 + 25 + 25/2 exceeds the balance. -/
theorem notional_may_exceed_balance :
    ∃ (s : Strategy) (session : ExchangeSession) (balance : Balance),
      session.Account.Balances s.Market.QuoteCurrency = some balance ∧
        0 < balance.Available ∧ 0 < s.numOrders ∧
        (∀ (orderExecutor : OrderExecutor) (t : Trace),
          (s.updateBidOrders orderExecutor session t).2.submitCalls
            = t.submitCalls ++ [s.ladder s.numOrders.toNat]) ∧
        balance.Available < notional (s.ladder s.numOrders.toNat) := by
  have hnum : exStrategy.numOrders = 3 := by decide
  have hpos : 0 < exStrategy.numOrders := by rw [hnum]; decide
  refine ⟨exStrategy, exSession 1, ⟨1⟩, rfl, by norm_num, hpos, ?_, ?_⟩
  · intro orderExecutor t
    rw [Strategy.updateBidOrders_of_guards exStrategy orderExecutor (exSession 1) t ⟨1⟩ rfl
      (by norm_num) hpos]
    cases orderExecutor.SubmitOrders (exStrategy.ladder exStrategy.numOrders.toNat) <;> rfl
  · have hl : exStrategy.ladder exStrategy.numOrders.toNat
        = [exStrategy.bidRequest 50, exStrategy.bidRequest 25,
            exStrategy.bidRequest (25 / 2)] := by
      rw [hnum]
      exact exStrategy_ladder
    rw [hl]
    simp [notional, Strategy.bidRequest, exStrategy]
    norm_num

/-! ## Filling the grid, and the missing price guard -/

namespace LocalActiveOrderBook

theorem Contains_addOne_other (b : LocalActiveOrderBook) (order : Order) (id : Nat)
    (hne : order.OrderID ≠ id) (h : b.Contains id = false) :
    (b.addOne order).Contains id = false := by
  simp only [Contains, addOne, List.any_cons, Bool.or_eq_false_iff, List.any_eq_false,
    List.mem_filter, beq_iff_eq, and_imp] at h ⊢
  exact ⟨by simpa using hne, fun o ho _ => h o ho⟩

theorem length_addOne_fresh (b : LocalActiveOrderBook) (order : Order)
    (h : b.Contains order.OrderID = false) :
    (b.addOne order).Bids.length = b.Bids.length + 1 := by
  have hall : ∀ o ∈ b.Bids, (o.OrderID != order.OrderID) = true := by
    simp only [Contains, List.any_eq_false, beq_iff_eq] at h
    intro o ho
    simpa using h o ho
  simp only [addOne, List.length_cons, List.filter_eq_self.mpr hall]

theorem length_Add_fresh (b : LocalActiveOrderBook) (orders : List Order)
    (hdistinct : (orders.map (fun o => o.OrderID)).Nodup)
    (hfresh : ∀ o ∈ orders, b.Contains o.OrderID = false) :
    (b.Add orders).Bids.length = b.Bids.length + orders.length := by
  induction orders generalizing b with
  | nil => rfl
  | cons x xs ih =>
    rw [List.map_cons, List.nodup_cons] at hdistinct
    rw [Add_cons, ih (b.addOne x) hdistinct.2, length_addOne_fresh b x
      (hfresh x (List.mem_cons_self _ _)), List.length_cons]
    · omega
    · intro o ho
      refine Contains_addOne_other b x o.OrderID ?_ (hfresh o (List.mem_cons_of_mem _ ho))
      intro heq
      exact hdistinct.1 (List.mem_map.mpr ⟨o, ho, heq.symm⟩)

end LocalActiveOrderBook

theorem wrapInt_zero : wrapInt 0 = 0 := by decide

theorem exExecutor_exStrategy :
    (exExecutor 1).SubmitOrders (exStrategy.ladder exStrategy.numOrders.toNat)
      = Except.ok [exOrder 1 50 OrderStatus.New, exOrder 2 25 OrderStatus.New,
          exOrder 3 (25 / 2) OrderStatus.New] := by
  have hnum : exStrategy.numOrders = 3 := by decide
  rw [hnum]
  simp only [Int.toNat_ofNat, exStrategy_ladder, exExecutor]
  simp [List.enum, List.enumFrom, exOrder, Strategy.bidRequest, exStrategy]
  norm_num

/-- C18: if a refresh cycle starts with fewer than `GridNum` tracked bids
(`GridNum` being a Go `int`), passes the balance guard, and `SubmitOrders`
returns exactly one buy order per request, with pairwise distinct ids none of
which is tracked, then after the cycle the number of tracked bids is exactly
`GridNum`, and a refresh cycle that follows with no order event in between
submits nothing, whatever the executor, the session and the price signal
are by then.  (The modelled book does not look at the side of an order, so
the proof does not need `_hbuy`.) -/
theorem updateOrders_fills_grid (s : Strategy) (orderExecutor : OrderExecutor)
    (session : ExchangeSession) (t : Trace) (balance : Balance) (orders : List Order)
    (hint : s.GridNum < 2 ^ 63)
    (hfew : s.activeOrders.NumOfBids < s.GridNum)
    (hbal : session.Account.Balances s.Market.QuoteCurrency = some balance)
    (hpos : 0 < balance.Available)
    (hok : orderExecutor.SubmitOrders (s.ladder s.numOrders.toNat) = Except.ok orders)
    (hone : orders.length = (s.ladder s.numOrders.toNat).length)
    (_hbuy : ∀ o ∈ orders, o.Side = SideType.Buy)
    (hdistinct : (orders.map (fun o => o.OrderID)).Nodup)
    (hfresh : ∀ o ∈ orders, s.activeOrders.Contains o.OrderID = false) :
    (s.updateOrders orderExecutor session t).1.activeOrders.NumOfBids = s.GridNum ∧
      ∀ (nextExecutor : OrderExecutor) (nextSession : ExchangeSession) (u : Trace)
        (signal : EWMA),
        (({ (s.updateOrders orderExecutor session t).1 with ewma := signal } :
            Strategy).updateOrders nextExecutor nextSession u).2.submitCalls
          = u.submitCalls := by
  have hnonneg : (0 : Int) ≤ s.activeOrders.NumOfBids := by
    unfold LocalActiveOrderBook.NumOfBids
    exact Int.ofNat_nonneg _
  have hnum : s.numOrders = s.GridNum - s.activeOrders.NumOfBids :=
    s.numOrders_eq (by linarith [show (0 : Int) < 2 ^ 63 by norm_num]) (by linarith)
  have hnumpos : 0 < s.numOrders := by rw [hnum]; linarith
  have hafter : (s.updateOrders orderExecutor session t).1
      = { s with activeOrders := s.activeOrders.Add orders } := by
    unfold Strategy.updateOrders
    rw [Strategy.updateBidOrders_of_guards s orderExecutor session _ balance hbal hpos hnumpos,
      hok]
  have hlen : ((orders.length : Nat) : Int) = s.numOrders := by
    rw [hone, Strategy.ladder_length]
    exact Int.toNat_of_nonneg (le_of_lt hnumpos)
  have hcount : (s.updateOrders orderExecutor session t).1.activeOrders.NumOfBids
      = s.GridNum := by
    rw [hafter]
    show (((s.activeOrders.Add orders).Bids.length : Nat) : Int) = s.GridNum
    rw [LocalActiveOrderBook.length_Add_fresh _ _ hdistinct hfresh, Nat.cast_add, hlen, hnum]
    unfold LocalActiveOrderBook.NumOfBids
    ring
  refine ⟨hcount, ?_⟩
  intro nextExecutor nextSession u signal
  have hfull : ({ (s.updateOrders orderExecutor session t).1 with ewma := signal } :
      Strategy).numOrders ≤ 0 := by
    have hg : (s.updateOrders orderExecutor session t).1.GridNum = s.GridNum := by
      rw [hafter]
    show wrapInt ((s.updateOrders orderExecutor session t).1.GridNum
      - (s.updateOrders orderExecutor session t).1.activeOrders.NumOfBids) ≤ 0
    rw [hcount, hg, sub_self, wrapInt_zero]
  have hcycle : ∀ next : Strategy, next.numOrders ≤ 0 →
      (next.updateOrders nextExecutor nextSession u).2.submitCalls = u.submitCalls := by
    intro next hnext
    unfold Strategy.updateOrders
    rw [Strategy.updateBidOrders_of_full next nextExecutor nextSession _ hnext]
    exact Strategy.cancelBids_submitCalls next nextSession u
  exact hcycle _ hfull

/-- Witness for C18: grid of 3, empty book, 1000 USDT, the executor confirms
the three requests as the New buy orders 1, 2, 3: three bids are tracked
afterwards and the next cycle submits nothing. -/
theorem updateOrders_fills_grid_witness :
    (exStrategy.updateOrders (exExecutor 1) (exSession 1000) Trace.empty).1.activeOrders.NumOfBids
        = 3 ∧
      (({ (exStrategy.updateOrders (exExecutor 1) (exSession 1000) Trace.empty).1 with
            ewma := ⟨90⟩ } : Strategy).updateOrders (exExecutor 4) (exSession 900)
          Trace.empty).2.submitCalls = [] := by
  have hnum : exStrategy.numOrders = 3 := by decide
  have h := updateOrders_fills_grid exStrategy (exExecutor 1) (exSession 1000) Trace.empty
    ⟨1000⟩ [exOrder 1 50 OrderStatus.New, exOrder 2 25 OrderStatus.New,
      exOrder 3 (25 / 2) OrderStatus.New]
    (by decide) (by decide) rfl (by norm_num) exExecutor_exStrategy
    (by rw [Strategy.ladder_length, hnum]; rfl)
    (by simp [exOrder]) (by simp [exOrder]) (by simp [exStrategy, NewLocalActiveOrderBook,
      LocalActiveOrderBook.Contains])
  exact ⟨h.1, h.2 (exExecutor 4) (exSession 900) Trace.empty ⟨90⟩⟩

/-- C19: `updateBidOrders` has no guard on the reference price: when
`ewma.Last()` is 0 and both the balance and the capacity guard pass, the batch
is still submitted, with `numOrders` (the `GridNum - NumOfBids()` of line 71)
requests, every one of them priced exactly 0. -/
theorem updateBidOrders_zero_price_submits (s : Strategy) (orderExecutor : OrderExecutor)
    (session : ExchangeSession) (t : Trace) (balance : Balance)
    (hlast : s.ewma.Last = 0)
    (hbal : session.Account.Balances s.Market.QuoteCurrency = some balance)
    (hpos : 0 < balance.Available) (hnum : 0 < s.numOrders) :
    (s.updateBidOrders orderExecutor session t).2.submitCalls
        = t.submitCalls ++ [s.ladder s.numOrders.toNat] ∧
      (((s.ladder s.numOrders.toNat).length : Nat) : Int) = s.numOrders ∧
      ∀ req ∈ s.ladder s.numOrders.toNat, req.Price = 0 := by
  refine ⟨?_, ?_, ?_⟩
  · rw [Strategy.updateBidOrders_of_guards s orderExecutor session t balance hbal hpos hnum]
    cases orderExecutor.SubmitOrders (s.ladder s.numOrders.toNat) <;> rfl
  · rw [Strategy.ladder_length]
    exact Int.toNat_of_nonneg (le_of_lt hnum)
  · intro req hreq
    rw [Strategy.ladder_eq, List.mem_map] at hreq
    obtain ⟨k, _, rfl⟩ := hreq
    show s.ewma.Last * s.Percentage ^ (k + 1) = 0
    rw [hlast, zero_mul]

/-- Witness for C19: the example strategy before the first data point, 1000
USDT available: one batch of three requests, all priced 0. -/
theorem updateBidOrders_zero_price_submits_witness :
    (exNoPrice.updateBidOrders (exExecutor 1) (exSession 1000) Trace.empty).2.submitCalls
        = [exNoPrice.ladder 3] ∧
      (exNoPrice.ladder 3).map (fun r => r.Price) = [0, 0, 0] := by
  have hnum : exNoPrice.numOrders = 3 := by decide
  have h := updateBidOrders_zero_price_submits exNoPrice (exExecutor 1) (exSession 1000)
    Trace.empty ⟨1000⟩ rfl rfl (by norm_num) (by rw [hnum]; decide)
  rw [hnum] at h
  refine ⟨h.1, ?_⟩
  rw [Strategy.ladder_prices_eq]
  simp [List.range_succ, exNoPrice]

end Flashcrash
